import Mathlib

/-!
Shallow embedding of the pbnsolve constraint-propagation search engine
(`solve.c` of pbnsolve-1.01, `probe.c` of the trunk, declarations from
`pbnsolve.h` of pbnsolve-1.03).

Colour bitstrings (`bit_type` arrays) are embedded as `Finset ℕ`; the cached
popcount field `cell->n` is kept as a separate `n : ℕ` field exactly as in the
C `Cell` structure.  The two parallel indexing arrays `sol->line[D_ROW]` /
`sol->line[D_COL]` over the same cells are embedded as one flat row-major cell
list, a cell with coordinates `(i, j)` living at index `i * ncols + j`; the
stored per-cell coordinates `cell->line[k]` are recovered as `idx / ncols` and
`idx % ncols`.

Code of the repository that is not present under `src/` (the line solver
`line_lro.c`, the job/history/backtrack code `job.c`, the merge buffer
`merge.c`) is modelled from the specification; every such definition carries a
doc comment starting with `Modelled from the spec:`.
-/

namespace PBN

/-- One cell of the solution grid: the set of still-possible colours
(`cell->bit`) and the cached count of set bits (`cell->n`). -/
structure Cell where
  bits : Finset ℕ
  n : ℕ
deriving DecidableEq

/-- Default cell used for out-of-range reads (never reachable in well-formed
states; its `n = 0` matches no solved cell). -/
def dCell : Cell := { bits := ∅, n := 0 }

/-- One history entry (`Hist` of pbnsolve.h): the branch flag, the mutated
cell (by flat index), and the cell's prior `(n, bit)` state. -/
structure Hist where
  branch : Bool
  cellIdx : ℕ
  oldN : ℕ
  oldBits : Finset ℕ
deriving DecidableEq

def dHist : Hist := { branch := false, cellIdx := 0, oldN := 0, oldBits := ∅ }

/-- One element of the probe merge list (`MergeElem` of pbnsolve.h): the cell,
the highest sibling-guess number that contributed, and the accumulated set of
colours eliminated by every sibling so far. -/
structure MergeElem where
  cellIdx : ℕ
  maxc : ℕ
  bits : Finset ℕ
deriving DecidableEq

/-- Modelled from the spec: state of the probe merge buffer (merge.c is not
under src/).  `cur` is the current sibling-guess number, `elems` the per-cell
accumulated eliminations (section 4.6 of the spec). -/
structure MergeState where
  cur : ℕ
  elems : List MergeElem
deriving DecidableEq

/-- One `P: PROBE ON (i,j)c COMPLETE WITH nl CELLS LEFT` record: the probed
cell's coordinates, the probed colour and the number of unsolved cells the
quiescent trial propagation left.  The same shape carries `probe`'s running
best guess `besti`, `bestj`, `bestc`, `bestnleft`. -/
structure Sel where
  i : ℕ
  j : ℕ
  c : ℕ
  nl : ℕ
deriving DecidableEq

/-- The solver state: the static puzzle shape (`ncolor`, `nrows`, `ncols`,
`ncells`, `nset`), the cell array with the `nsolved` counter, the job queue,
the undo history, the probing flag and probe pad and merge buffer of probe.c,
the instrumentation counters, and `plog`, the trace of the
`P: PROBE ON (i,j)c COMPLETE WITH n CELLS LEFT` messages probe.c prints
(one entry per completed quiescent probe). -/
structure PState where
  ncolor : ℕ
  nrows : ℕ
  ncols : ℕ
  ncells : ℕ
  nset : ℕ
  cells : List Cell
  nsolved : ℕ
  jobs : List (ℕ × ℕ)
  history : List Hist
  probing : Bool
  probepad : List (Finset ℕ)
  mergeSt : MergeState
  nlines : ℕ
  guesses : ℕ
  probes : ℕ
  merges : ℕ
  backtracks : ℕ
  plog : List Sel
deriving DecidableEq

/-- Macro `may_be(cell, color)`: `bit_test(cell->bit, color)`. -/
def may_be (cell : Cell) (c : ℕ) : Prop := c ∈ cell.bits

instance (cell : Cell) (c : ℕ) : Decidable (may_be cell c) := by
  unfold may_be; infer_instance

/-- The cell at grid coordinates `(i, j)` (`sol->line[D_ROW][i][j]`). -/
def cellAt (st : PState) (i j : ℕ) : Cell := st.cells.getD (i * st.ncols + j) dCell

/-- Number of cells whose possibility count is 1 (the quantity the puzzle
counter `puz->nsolved` caches). -/
def countSolved (cs : List Cell) : ℕ := cs.countP (fun c => c.n = 1)

/-- The `nsolved` bookkeeping invariant: `nsolved = |{c : c.n = 1}|`. -/
def Inv (st : PState) : Prop := st.nsolved = countSolved st.cells

instance (st : PState) : Decidable (Inv st) := by unfold Inv; infer_instance

/-- Cached bit counts agree with the bitstrings. -/
def CellsOK (st : PState) : Prop := ∀ cell ∈ st.cells, cell.n = cell.bits.card

instance (st : PState) : Decidable (CellsOK st) := by
  unfold CellsOK; infer_instance

/-- All history entries point at cells inside the grid. -/
def HistIdxOK (st : PState) : Prop := ∀ h ∈ st.history, h.cellIdx < st.cells.length

instance (st : PState) : Decidable (HistIdxOK st) := by
  unfold HistIdxOK; infer_instance

/-- Modelled from the spec: `add_job` of job.c.  Adding a line that is already
queued is a no-op (each clue carries its queue index, section 4.2); the
priority ordering is abstracted to FIFO order, which the spec leaves to the
implementation ("ties broken arbitrarily but deterministically"). -/
def add_job (st : PState) (d i : ℕ) : PState :=
  if (d, i) ∈ st.jobs then st else { st with jobs := st.jobs ++ [(d, i)] }

/-- Modelled from the spec: `add_jobs(puz, cell)` of job.c puts the lines
crossing the cell on the job list, i.e. row `idx / ncols` and column
`idx % ncols` for a grid puzzle (`nset = 2`). -/
def add_jobs (st : PState) (idx : ℕ) : PState :=
  add_job (add_job st 0 (idx / st.ncols)) 1 (idx % st.ncols)

/-- Modelled from the spec: `add_hist(puz, cell, branch)` of job.c pushes the
cell's prior `(n, possible)` with the branch flag.  Recording is active when
the entry is a branch or some history is already live (sections 3 and 4.4);
before the first guess nothing is recorded. -/
def add_hist (st : PState) (idx : ℕ) (branch : Bool) : PState :=
  if branch = true ∨ st.history ≠ [] then
    let cur := st.cells.getD idx dCell
    { st with history :=
        { branch := branch, cellIdx := idx, oldN := cur.n, oldBits := cur.bits }
          :: st.history }
  else st

/-- `guess_cell` of solve.c (lines 294-309): save the old cell in the
backtrack history as a branch point, set just the one colour
(`cell->n = 1; bit_clearall; bit_set`), increment `puz->nsolved`, and put all
crossing lines on the job list. -/
def guess_cell (st : PState) (idx : ℕ) (c : ℕ) : PState :=
  let st1 := add_hist st idx true
  let st2 := { st1 with
    cells := st1.cells.set idx { bits := {c}, n := 1 },
    nsolved := st1.nsolved + 1 }
  add_jobs st2 idx

/-- Modelled from the spec: the effect of the line solver storing one
tightened cell (line_lro.c and the cell-update part of job.c are not under
src/).  Per section 4.1, the new possibility set is a subset of the old one
(enforced by intersecting); when the set strictly shrinks the prior state is
recorded in history (if recording is active) and the crossing lines are
enqueued, and per section 3 `nsolved` increments when the cell transitions to
`n = 1`.  Out-of-range indices are rejected (the C code cannot produce them). -/
def tightenCell (st : PState) (idx : ℕ) (nb : Finset ℕ) : PState :=
  if idx < st.cells.length then
    let cur := st.cells.getD idx dCell
    let nb2 := nb ∩ cur.bits
    if nb2 = cur.bits then st
    else
      let st1 := add_hist st idx false
      let st2 := { st1 with
        cells := st1.cells.set idx { bits := nb2, n := nb2.card },
        nsolved := if nb2.card = 1 ∧ cur.n ≠ 1 then st1.nsolved + 1 else st1.nsolved }
      add_jobs st2 idx
  else st

/-- Modelled from the spec: storing the tightened sets a line solve computed,
one cell after another; an empty intersection is a contradiction that is
signalled, not stored (section 3). -/
def applyTight : List (ℕ × Finset ℕ) → PState → PState × Bool
  | [], st => (st, true)
  | (idx, nb) :: rest, st =>
    let cur := st.cells.getD idx dCell
    if nb ∩ cur.bits = ∅ then (st, false)
    else applyTight rest (tightenCell st idx nb)

/-- Modelled from the spec: `apply_lro(puz, sol, dir, i)` (line_lro.c is not
under src/).  The left-right-overlap computation itself is an oracle `lro`
returning the list of tightened per-cell possibility sets, or `none` when the
line admits no placement; its results are stored with `applyTight`.  Returns
`false` on contradiction, `true` otherwise, as the C function does. -/
def apply_lro (lro : ℕ → ℕ → List Cell → Option (List (ℕ × Finset ℕ)))
    (d i : ℕ) (st : PState) : PState × Bool :=
  match lro d i st.cells with
  | none => (st, false)
  | some tight => applyTight tight st

/-- `logic_solve` of solve.c 1.01 (lines 317-340): pop jobs with `next_job`
(modelled as the queue head), count the invocation in `nlines`, run the line
solver, stop with 0 on contradiction, and return 1 when the queue is empty.
The C loop's termination is represented by fuel: `none` means the fuel ran
out before the queue drained. -/
def logic_solve (lro : ℕ → ℕ → List Cell → Option (List (ℕ × Finset ℕ))) :
    ℕ → PState → Option (PState × ℕ)
  | 0, st =>
    match st.jobs with
    | [] => some (st, 1)
    | _ :: _ => none
  | Nat.succ f, st =>
    match st.jobs with
    | [] => some (st, 1)
    | (d, i) :: rest =>
      let st1 := { st with jobs := rest, nlines := st.nlines + 1 }
      let res := apply_lro lro d i st1
      if res.2 then logic_solve lro f res.1 else some (res.1, 0)

/-- Modelled from the spec: `flush_jobs` of job.c empties the queue
(section 4.2). -/
def flush_jobs (st : PState) : PState := { st with jobs := [] }

/-- Modelled from the spec: restoring the popped history entry's prior
`(n, possible)` into the cell (section 4.4).  `nsolved` is adjusted by the
solved-cell delta of the restoration; on the states the solver reaches only
the decrement case ("transitions away from `n = 1`") occurs, since `possible`
sets never grow outside restoration. -/
def restoreTop (st : PState) (h : Hist) : PState :=
  let cur := st.cells.getD h.cellIdx dCell
  { st with
    cells := st.cells.set h.cellIdx { bits := h.oldBits, n := h.oldN },
    nsolved := st.nsolved + (if h.oldN = 1 then 1 else 0) - (if cur.n = 1 then 1 else 0) }

/-- Modelled from the spec: the worker of `undo(puz, sol, 0)` of job.c
(section 4.4 `undo_one_level`): pop entries, restoring each cell, until and
including the next branch entry. -/
def undoList : List Hist → PState → PState
  | [], st => st
  | h :: rest, st =>
    let st1 := restoreTop { st with history := rest } h
    if h.branch then st1 else undoList rest st1

/-- Modelled from the spec: `undo(puz, sol, 0)` of job.c unwinds one level of
history (section 4.4). -/
def undo (st : PState) : PState := undoList st.history st

/-- Modelled from the spec: the worker of `backtrack` of job.c (section 4.4):
pop entries, restoring each, down to the last branch entry; the branch cell is
then inverted, not restored — it is re-mutated to the branch's prior
possibility set with the guessed colour (the colour the cell currently holds)
cleared — and its crossing lines are enqueued.  If the inverted cell has
`n = 0` the backtrack repeats; with no branch left it fails (`none`). -/
def backtrackList : List Hist → PState → Option PState
  | [], _ => none
  | h :: rest, st =>
    if h.branch then
      let cur := st.cells.getD h.cellIdx dCell
      let nb := h.oldBits \ cur.bits
      let st1 := { st with
        history := rest,
        cells := st.cells.set h.cellIdx { bits := nb, n := nb.card },
        nsolved := st.nsolved + (if nb.card = 1 then 1 else 0) -
          (if cur.n = 1 then 1 else 0) }
      let st2 := add_jobs st1 h.cellIdx
      if nb = ∅ then backtrackList rest (flush_jobs st2) else some st2
    else backtrackList rest (restoreTop { st with history := rest } h)

/-- Modelled from the spec: `backtrack(puz, sol)` of job.c (section 4.4):
flush the job queue, then unwind to the last branch and invert that guess.
Returns `none` when there is no branch to back up to (the C function's
nonzero return). -/
def backtrack (st : PState) : Option PState := backtrackList st.history (flush_jobs st)

/-- The index of the line of direction `k` crossing the cell at flat index
`idx` (`cell->line[k]`): its row for `k = 0`, its column otherwise. -/
def lineOf (st : PState) (idx k : ℕ) : ℕ :=
  if k = 0 then idx / st.ncols else idx % st.ncols

/-- The colour loop of `try_everything` (solve.c lines 139-187) on one cell:
`realbit`/`realn` hold the saved settings; every colour still in `realbit` is
tried by temporarily setting the cell to that colour alone and running
`left_solve` (the oracle `ls`, line_lro.c being absent) on every crossing
line; if some line admits no placement the colour is cleared from `realbit`,
`realn` drops, and the crossing lines are enqueued; when `realn` reaches 1 the
cell counts as solved (`puz->nsolved++`) and the remaining colours are skipped
(`goto celldone`). -/
def tryColors (ls : List Cell → ℕ → ℕ → Bool) (idx : ℕ) :
    List ℕ → PState → Finset ℕ → ℕ → ℕ → PState × Finset ℕ × ℕ × ℕ
  | [], st, realbit, realn, hits => (st, realbit, realn, hits)
  | c :: cs, st, realbit, realn, hits =>
    if c ∈ realbit then
      let trialCells := st.cells.set idx { bits := {c}, n := 1 }
      if (List.range st.nset).all (fun k => ls trialCells k (lineOf st idx k)) then
        tryColors ls idx cs st realbit realn hits
      else
        let realbit2 := realbit.erase c
        let realn2 := realn - 1
        let st1 := add_jobs st idx
        if realn2 = 1 then
          ({ st1 with nsolved := st1.nsolved + 1 }, realbit2, realn2, hits + 1)
        else tryColors ls idx cs st1 realbit2 realn2 (hits + 1)
    else tryColors ls idx cs st realbit realn hits

/-- The per-cell body of `try_everything` (solve.c lines 130-192): solved
cells are skipped; otherwise the cell's settings are saved, every possible
colour is tried, and the saved (possibly reduced) settings are written back.
Returns the new state and the eliminations this cell contributed. -/
def teCell (ls : List Cell → ℕ → ℕ → Bool) (st : PState) (idx : ℕ) : PState × ℕ :=
  let cell := st.cells.getD idx dCell
  if cell.n = 1 then (st, 0)
  else
    let r := tryColors ls idx (List.range st.ncolor) st cell.bits cell.n 0
    ({ r.1 with cells := r.1.cells.set idx { bits := r.2.1, n := r.2.2.1 } }, r.2.2.2)

/-- The cell scan of `try_everything`: row-major over the whole grid,
accumulating the number of eliminations (`hits`). -/
def teScan (ls : List Cell → ℕ → ℕ → Bool) : List ℕ → PState → ℕ → PState × ℕ
  | [], st, hits => (st, hits)
  | idx :: rest, st, hits =>
    let r := teCell ls st idx
    teScan ls rest r.1 (hits + r.2)

/-- `try_everything` of solve.c (lines 116-197): try every unsolved cell in
every colour possible to it, eliminate colours whose trial makes a crossing
line insolvable, and report the number of eliminations. -/
def try_everything (ls : List Cell → ℕ → ℕ → Bool) (st : PState) : PState × ℕ :=
  teScan ls (List.range st.cells.length) st 0

/-- `count_neighbors` of solve.c (lines 38-49): the number of neighbours of
cell `(i, j)` that are either solved or edges; a cell beyond the east edge
(the NULL terminator) counts as an edge. -/
def count_neighbors (st : PState) (i j : ℕ) : ℕ :=
  (if i = 0 ∨ (cellAt st (i - 1) j).n = 1 then 1 else 0) +
  (if i = st.nrows - 1 ∨ (cellAt st (i + 1) j).n = 1 then 1 else 0) +
  (if j = 0 ∨ (cellAt st i (j - 1)).n = 1 then 1 else 0) +
  (if j + 1 ≥ st.ncols ∨ (cellAt st i (j + 1)).n = 1 then 1 else 0)

/-- Copy the grid-level fields (cells, counts, queue, history, merge buffer)
produced by an oracle back into the state, leaving the static shape, the
probing bookkeeping and the instrumentation counters of the caller intact.
Oracles standing for absent callees are threaded through this, so they can
touch exactly the state the corresponding C code touches. -/
def withGrid (base upd : PState) : PState :=
  { base with
    cells := upd.cells,
    nsolved := upd.nsolved,
    jobs := upd.jobs,
    history := upd.history,
    mergeSt := upd.mergeSt }

/-- Modelled from the spec: `merge_guess()` of merge.c increments the current
sibling-guess number (section 4.6). -/
def merge_guess (ms : MergeState) : MergeState := { ms with cur := ms.cur + 1 }

/-- Modelled from the spec: `merge_cancel()` of merge.c discards the current
sibling's contributions (section 4.6): entries whose last contribution came
from the current sibling are dropped. -/
def merge_cancel (ms : MergeState) : MergeState :=
  { ms with elems := ms.elems.filter (fun e => e.maxc ≠ ms.cur) }

/-- Modelled from the spec: `merge_check(puz)` of merge.c (section 4.6).  For
each recorded cell to which every sibling contributed (`maxc` equals the
current sibling number), the accumulated colours are eliminated from the
cell's `possible` (recording history and enqueueing crossing lines as any
cell mutation does); returns `true` iff at least one elimination was made;
the merge list is cleared afterwards. -/
def merge_check (st : PState) : PState × Bool :=
  let step := fun (acc : PState × Bool) (e : MergeElem) =>
    if e.maxc = st.mergeSt.cur then
      let cur := acc.1.cells.getD e.cellIdx dCell
      let nb := cur.bits \ e.bits
      if nb = cur.bits ∨ nb = ∅ then acc
      else (tightenCell acc.1 e.cellIdx nb, true)
    else acc
  let r := st.mergeSt.elems.foldl step (st, false)
  ({ r.1 with mergeSt := { cur := r.1.mergeSt.cur, elems := [] } }, r.2)

/-- Modelled from probe.c's SCRATCHPAD comment (lines 31-36): every colour a
cell is set to in the course of the current probe sequence is ORed into the
cell's probe-pad entry.  `pre` is the cell array before the probe's
propagation; cells newly collapsed to one colour contribute that colour. -/
def padOr (pre : List Cell) (st : PState) : PState :=
  { st with probepad := (List.range st.probepad.length).map (fun m =>
      let old := st.probepad.getD m ∅
      let c0 := pre.getD m dCell
      let c1 := st.cells.getD m dCell
      if c1.n = 1 ∧ c0.n ≠ 1 then old ∪ c1.bits else old) }

/-- Result of the trunk `logic_solve(puz, sol, 0)` as probe.c consumes it:
`rc = 0` quiescent, `rc < 0` contradiction, `rc > 0` puzzle solved. -/
inductive LV
  | quiesc
  | contra
  | solvedLV
deriving DecidableEq

/-- Result of the colour loop of `probe_cell`: the C `exit(1)` after a failed
backtrack, an early `return` (`rc = -1` or `-2`), or the loop running off the
end with the running best and the `foundbetter` count. -/
inductive LoopRes
  | abortL
  | early (st : PState) (bnl bc : ℕ) (rc : ℤ)
  | fin (st : PState) (bnl bc fb : ℕ)
deriving DecidableEq

/-- Result of `probe_cell`: `exit(1)`, or its return value `rc` together with
the state and the (by-pointer) `*bestnleft`, `*bestc` outputs. -/
inductive PCRes
  | abortRun
  | done (st : PState) (bnl bc : ℕ) (rc : ℤ)
deriving DecidableEq

/-- The colour loop of `probe_cell` (probe.c lines 77-160).  The trunk
propagation `logic_solve(puz, sol, 0)` is the oracle `trial` (that trunk
solve.c is not under src/); it receives the state after the probe's guess and
returns the propagated state (its grid-level fields are taken over with
`withGrid`, and `padOr` accounts for the probe-pad ORing the propagation
performs while probing) plus its verdict.  Possible colours already on the
probe pad are skipped, cancelling merging for the cell; otherwise the colour
is probed: count it, `merge_guess`, `guess_cell`, propagate, and dispatch on
the verdict exactly as the C does — quiescent probes are logged, rated
against `*bestnleft` and undone; a contradiction cancels merging, counts a
guess, backtracks (aborting if there is nothing to backtrack to), clears
`probing` and returns -1; an accidental solution cancels merging, clears
`probing` and returns -2. -/
def probeCellLoop (trial : ℕ → PState → PState × LV) (merging : Bool) (idx : ℕ) :
    List ℕ → PState → ℕ → ℕ → ℕ → LoopRes
  | [], st, bnl, bc, fb => .fin st bnl bc fb
  | c :: cs, st, bnl, bc, fb =>
    if c ∈ (st.cells.getD idx dCell).bits then
      if c ∈ st.probepad.getD idx ∅ then
        probeCellLoop trial merging idx cs
          (if merging then { st with mergeSt := merge_cancel st.mergeSt } else st)
          bnl bc fb
      else
        let st1 := { st with probes := st.probes + 1 }
        let st2 := if merging then { st1 with mergeSt := merge_guess st1.mergeSt } else st1
        let st3 := guess_cell st2 idx c
        let t := trial c st3
        let st4 := padOr st3.cells (withGrid st3 t.1)
        match t.2 with
        | LV.quiesc =>
          let nleft := st4.ncells - st4.nsolved
          let st5 := { st4 with
            plog := st4.plog ++ [Sel.mk (idx / st4.ncols) (idx % st4.ncols) c nleft] }
          let st6 := undo st5
          if nleft < bnl then probeCellLoop trial merging idx cs st6 nleft c (fb + 1)
          else probeCellLoop trial merging idx cs st6 bnl bc fb
        | LV.contra =>
          let st5 := if merging then { st4 with mergeSt := merge_cancel st4.mergeSt } else st4
          let st6 := { st5 with guesses := st5.guesses + 1 }
          match backtrack st6 with
          | none => .abortL
          | some st7 => .early { st7 with probing := false } bnl bc (-1)
        | LV.solvedLV =>
          let st5 := if merging then { st4 with mergeSt := merge_cancel st4.mergeSt } else st4
          .early { st5 with probing := false } bnl bc (-2)
    else probeCellLoop trial merging idx cs st bnl bc fb

/-- `probe_cell` of probe.c (lines 66-174): set `merging` from `mergeprobe`,
run the colour loop, and afterwards check the merge buffer: a merge
elimination counts in `merges`, clears `probing` and returns -1; otherwise
the return value is `foundbetter`. -/
def probe_cell (trial : ℕ → PState → PState × LV) (mergeprobe : Bool) (idx : ℕ)
    (st : PState) (bnl bc : ℕ) : PCRes :=
  let merging := mergeprobe
  match probeCellLoop trial merging idx (List.range st.ncolor) st bnl bc 0 with
  | .abortL => .abortRun
  | .early st2 b1 b2 rc => .done st2 b1 b2 rc
  | .fin st2 bnl2 bc2 fb =>
    if merging then
      let mc := merge_check st2
      if mc.2 then
        .done { mc.1 with merges := mc.1.merges + 1, probing := false } bnl2 bc2 (-1)
      else .done mc.1 bnl2 bc2 (fb : ℤ)
    else .done st2 bnl2 bc2 (fb : ℤ)

/-- The update `if (nleft < *bestnleft) ...` applied by a completed quiescent
probe to the running best. -/
def selStep (b t : Sel) : Sel := if t.nl < b.nl then t else b

/-- Result of one of `probe`'s candidate passes. -/
inductive PassRes
  | abortP
  | earlyP (st : PState) (rc : ℤ)
  | finP (st : PState) (sel : Sel)
deriving DecidableEq

/-- A run of `probe_cell` calls over a candidate list (the bodies of the two
scans in `probe`, probe.c lines 220-249 and 258-279): solved cells are
skipped, the full pass (`useNeigh`) also skips cells with fewer than two
solved-or-edge neighbours; a negative `probe_cell` return ends the scan, a
positive one moves `besti`, `bestj` to the current cell. -/
def probeCells (trial : ℕ → PState → PState × LV) (merging useNeigh : Bool) :
    List (ℕ × ℕ) → PState → Sel → PassRes
  | [], st, sel => .finP st sel
  | (i, j) :: rest, st, sel =>
    let cell := cellAt st i j
    if cell.n < 2 then probeCells trial merging useNeigh rest st sel
    else if useNeigh = true ∧ count_neighbors st i j < 2 then
      probeCells trial merging useNeigh rest st sel
    else
      match probe_cell trial merging (i * st.ncols + j) st sel.nl sel.c with
      | .abortRun => .abortP
      | .done st2 bnl2 bc2 rc =>
        if rc < 0 then .earlyP st2 rc
        else
          let sel2 : Sel :=
            if 0 < rc then { i := i, j := j, c := bc2, nl := bnl2 }
            else { i := sel.i, j := sel.j, c := bc2, nl := bnl2 }
          probeCells trial merging useNeigh rest st2 sel2

/-- The four orthogonal neighbours of `(ci, cj)` that are on the grid, in the
order probe.c's `switch` visits them (lines 221-234); beyond-edge positions
are dropped as the C `continue`s do. -/
def neighborsOf (st : PState) (ci cj : ℕ) : List (ℕ × ℕ) :=
  (if ci = 0 then [] else [(ci - 1, cj)]) ++
  (if ci = st.nrows - 1 then [] else [(ci + 1, cj)]) ++
  (if cj = 0 then [] else [(ci, cj - 1)]) ++
  (if cj + 1 ≥ st.ncols then [] else [(ci, cj + 1)])

/-- The neighbourhood pass of `probe` (probe.c lines 209-254): walk the
history from the most recent entry, probing the unsolved neighbours of each
recorded cell, and stop after the entry that was the last branch point. -/
def probeHistPass (trial : ℕ → PState → PState × LV) (merging : Bool) :
    List Hist → PState → Sel → PassRes
  | [], st, sel => .finP st sel
  | h :: rest, st, sel =>
    let ci := h.cellIdx / st.ncols
    let cj := h.cellIdx % st.ncols
    match probeCells trial merging false (neighborsOf st ci cj) st sel with
    | .abortP => .abortP
    | .earlyP st2 rc => .earlyP st2 rc
    | .finP st2 sel2 =>
      if h.branch then .finP st2 sel2
      else probeHistPass trial merging rest st2 sel2

/-- `INT_MAX`, the initial `bestnleft`. -/
def INT_MAX : ℕ := 2147483647

/-- Result of `probe`: the two `exit(1)` paths (no candidate found; backtrack
failed inside `probe_cell`), the chosen guess (return 0 with `besti`,
`bestj`, `bestc`), a necessary consequence found (return -1), or an
accidental solution (return 1). -/
inductive ProbeRes
  | errorNoCand
  | errorBacktrack
  | guessAt (i j c : ℕ)
  | fact
  | solvedR
deriving DecidableEq

/-- Row-major scan order over the grid, as the nested `for` loops of `probe`
visit it. -/
def scanPairs (nr nc : ℕ) : List (ℕ × ℕ) :=
  (List.range nr).foldr (fun i acc => ((List.range nc).map (fun j => (i, j))) ++ acc) []

/-- `probe` of probe.c (lines 190-297): clear the probe pad, set `probing`,
run the neighbourhood pass when `probelevel > 1` and then the full pass, and
finally select the best probed guess — aborting with a diagnostic when
`bestnleft` is still `INT_MAX`.  `bi0`, `bj0`, `bc0` are the initial contents
of the caller's `besti`, `bestj`, `bestc` variables (uninitialised in C). -/
def probe (trial : ℕ → PState → PState × LV) (mergeprobe : Bool) (probelevel : ℕ)
    (st : PState) (bi0 bj0 bc0 : ℕ) : PState × ProbeRes :=
  let merging := mergeprobe
  let st1 := { st with probepad := List.replicate st.ncells ∅, probing := true }
  let sel0 : Sel := { i := bi0, j := bj0, c := bc0, nl := INT_MAX }
  let pass1 := if 1 < probelevel then probeHistPass trial merging st1.history st1 sel0
               else PassRes.finP st1 sel0
  match pass1 with
  | .abortP => (st1, .errorBacktrack)
  | .earlyP st2 rc => (st2, if rc = -2 then .solvedR else .fact)
  | .finP st2 sel2 =>
    match probeCells trial merging true (scanPairs st2.nrows st2.ncols) st2 sel2 with
    | .abortP => (st2, .errorBacktrack)
    | .earlyP st3 rc => (st3, if rc = -2 then .solvedR else .fact)
    | .finP st3 sel3 =>
      if sel3.nl = INT_MAX then (st3, .errorNoCand)
      else ({ st3 with probing := false }, .guessAt sel3.i sel3.j sel3.c)

/-- The `while (1)` loop of `solve` (solve.c 1.01, lines 360-503), one fuel
unit per iteration.  The guessing phase (the inline probing machinery or the
`pick_a_cell`/`pick_color` heuristic, depending on `mayprobe`) is the oracle
`guessF`, whose grid-level effects are taken over with `withGrid` and which
answers `none` when `pick_a_cell` returns NULL (the C `return 0`); committing
a guess counts in `guesses`.  On a contradiction the code counts a guess and
backtracks, returning 0 when there is nothing to backtrack to. -/
def solveLoop (lro : ℕ → ℕ → List Cell → Option (List (ℕ × Finset ℕ)))
    (ls : List Cell → ℕ → ℕ → Bool) (guessF : PState → Option PState)
    (tryharder maybacktrack : Bool) (lfuel : ℕ) :
    ℕ → PState → Option (PState × ℕ)
  | 0, _ => none
  | Nat.succ f, st =>
    match logic_solve lro lfuel st with
    | none => none
    | some (st1, r) =>
      if r = 1 then
        if st1.nsolved = st1.ncells then some (st1, 1)
        else
          let te := if tryharder = true ∧ st1.history = [] then try_everything ls st1
                    else (st1, 0)
          if (tryharder = true ∧ st1.history = []) ∧ 0 < te.2 then
            solveLoop lro ls guessF tryharder maybacktrack lfuel f te.1
          else if maybacktrack = false then some (te.1, 1)
          else
            match guessF te.1 with
            | none => some (te.1, 0)
            | some g =>
              let st2 := withGrid te.1 g
              solveLoop lro ls guessF tryharder maybacktrack lfuel f
                { st2 with guesses := st2.guesses + 1 }
      else
        let st2 := { st1 with guesses := st1.guesses + 1 }
        match backtrack st2 with
        | none => some (st2, 0)
        | some st3 => solveLoop lro ls guessF tryharder maybacktrack lfuel f st3

/-- `solve` of solve.c 1.01 (lines 346-504): puzzles with fewer than two
colours are declared already solved (`puz->nsolved = puz->ncells; return 1`)
before the main loop is ever entered. -/
def solve (lro : ℕ → ℕ → List Cell → Option (List (ℕ × Finset ℕ)))
    (ls : List Cell → ℕ → ℕ → Bool) (guessF : PState → Option PState)
    (tryharder maybacktrack : Bool) (lfuel fuel : ℕ) (st : PState) :
    Option (PState × ℕ) :=
  if st.ncolor < 2 then some ({ st with nsolved := st.ncells }, 1)
  else solveLoop lro ls guessF tryharder maybacktrack lfuel fuel st

/-- Clue data used by `ratecell`: the number of clue runs (`clue->n`) and the
precomputed slack (`clue->slack`). -/
structure ClueInfo where
  n : ℕ
  slack : ℕ
deriving DecidableEq

def dClue : ClueInfo := { n := 0, slack := 0 }

/-- `ratecell` of solve.c under `GR_ADHOC` (lines 14-22), exactly as written:
both `si` and `sj` read `puz->clue[0][i].slack + 2*puz->clue[0][i].n`; the
column clue array is never consulted. -/
def ratecell (clue0 clue1 : List ClueInfo) (i j : ℕ) : ℕ :=
  let si := (clue0.getD i dClue).slack + 2 * (clue0.getD i dClue).n
  let sj := (clue0.getD i dClue).slack + 2 * (clue0.getD i dClue).n
  if si < sj then 3 * si + sj else 3 * sj + si

/-- The ad-hoc rating as the spec states it (section 4.10):
`3 * min(s_row, s_col) + max(s_row, s_col)` with `s = slack + 2 * clue_count`,
`s_row` taken from row clue `i` and `s_col` from column clue `j`. -/
def ratecellSpec (clue0 clue1 : List ClueInfo) (i j : ℕ) : ℕ :=
  let srow := (clue0.getD i dClue).slack + 2 * (clue0.getD i dClue).n
  let scol := (clue1.getD j dClue).slack + 2 * (clue1.getD j dClue).n
  3 * min srow scol + max srow scol

/-! ### Shared concrete sample data for witnesses -/

/-- A small concrete solver state: a 1x2 grid, two colours, both cells
unsolved, empty queue and history. -/
def stW : PState := {
  ncolor := 2, nrows := 1, ncols := 2, ncells := 2, nset := 2,
  cells := [{ bits := {0, 1}, n := 2 }, { bits := {0, 1}, n := 2 }],
  nsolved := 0, jobs := [], history := [], probing := false,
  probepad := [∅, ∅], mergeSt := { cur := 0, elems := [] },
  nlines := 0, guesses := 0, probes := 0, merges := 0, backtracks := 0,
  plog := [] }

/-- A trivial line-solver oracle that tightens nothing. -/
def lroW : ℕ → ℕ → List Cell → Option (List (ℕ × Finset ℕ)) := fun _ _ _ => some []

/-- A trivial `left_solve` oracle that always finds a placement. -/
def lsW : List Cell → ℕ → ℕ → Bool := fun _ _ _ => true

/-- A trivial guess-phase oracle that never guesses. -/
def gW : PState → Option PState := fun _ => none

/-! ### C5 — idempotence of `logic_solve` -/

/-- C5: a call to `logic_solve` that returns quiescent (1) drains the job
queue to empty, and an immediately following call — with any fuel — pops no
job and returns quiescent with the state bitwise identical. -/
theorem C5_logic_solve_idempotent (lro : ℕ → ℕ → List Cell → Option (List (ℕ × Finset ℕ)))
    (fuel : ℕ) (st st1 : PState) (h : logic_solve lro fuel st = some (st1, 1)) :
    st1.jobs = [] ∧ ∀ fuel2, logic_solve lro fuel2 st1 = some (st1, 1) := by
  have jobsEmpty : st1.jobs = [] := by
    induction fuel generalizing st with
    | zero =>
      cases hj : st.jobs with
      | nil =>
        simp only [logic_solve, hj] at h
        cases h
        exact hj
      | cons p rest => simp [logic_solve, hj] at h
    | succ f ih =>
      cases hj : st.jobs with
      | nil =>
        simp only [logic_solve, hj] at h
        cases h
        exact hj
      | cons p rest =>
        obtain ⟨d, i⟩ := p
        simp only [logic_solve, hj] at h
        by_cases hok : (apply_lro lro d i { st with jobs := rest, nlines := st.nlines + 1 }).2
        · rw [if_pos hok] at h
          exact ih _ h
        · rw [if_neg hok] at h
          cases h
  refine ⟨jobsEmpty, fun fuel2 => ?_⟩
  cases fuel2 with
  | zero => simp [logic_solve, jobsEmpty]
  | succ f2 => simp [logic_solve, jobsEmpty]

/-- Witness for C5 at a concrete input: one job on the queue, a line solver
that tightens nothing; one fuel unit drains the queue. -/
theorem C5_witness :
    logic_solve lroW 1 { stW with jobs := [(0, 0)] } =
      some ({ stW with jobs := [], nlines := 1 }, 1) ∧
    ({ stW with jobs := [], nlines := 1 } : PState).jobs = [] ∧
    ∀ fuel2, logic_solve lroW fuel2 { stW with jobs := [], nlines := 1 } =
      some ({ stW with jobs := [], nlines := 1 }, 1) := by
  exact ⟨by decide,
    C5_logic_solve_idempotent lroW 1 { stW with jobs := [(0, 0)] }
      { stW with jobs := [], nlines := 1 } (by decide)⟩

/-! ### C6 — the ad-hoc `ratecell` policy -/

/-- C6: the claim states the intended semantics
`3 * min(s_row, s_col) + max(s_row, s_col)`; the code computes `si` and `sj`
from the row clue `clue[0][i]` both times, so it returns `4 * s_row` and
ignores the column clue entirely.  At row clue (slack 0, 1 run) and column
clue (slack 1, 2 runs) the code yields 8 where the claimed rating is 11. -/
theorem C6_ratecell_adhoc_bug :
    ratecell [{ n := 1, slack := 0 }] [{ n := 2, slack := 1 }] 0 0 = 8 ∧
    ratecellSpec [{ n := 1, slack := 0 }] [{ n := 2, slack := 1 }] 0 0 = 11 ∧
    (∀ clue0 clue1a clue1b i j, ratecell clue0 clue1a i j = ratecell clue0 clue1b i j) :=
  ⟨by decide, by decide, fun _ _ _ _ _ => rfl⟩

/-! ### C7 — how a probe's trial assignment is recorded -/

/-- C7 counterexample: the claim says the probe's trial assignment is
recorded as a non-branch history frame; but `guess_cell` — which
`probe_cell` uses to make the trial assignment (probe.c line 98) — records
it with `add_hist(puz, cell, 1)`, a branch frame. -/
theorem C7_counterexample :
    ¬ (((guess_cell stW 0 1).history.headD dHist).branch = false) := by decide

/-- C7 (amended): each probe's trial assignment is recorded in the history as
a branch frame holding the cell's prior state, so the probe itself is the
target backtracking inverts on a contradiction and `undo` unwinds through
after a quiescent trial. -/
theorem C7_guess_recorded_as_branch (st : PState) (idx c : ℕ) :
    (guess_cell st idx c).history =
      { branch := true, cellIdx := idx, oldN := (st.cells.getD idx dCell).n,
        oldBits := (st.cells.getD idx dCell).bits } :: st.history := by
  unfold guess_cell add_jobs add_job add_hist
  simp only [true_or, if_true]
  split <;> split <;> rfl

/-! ### C10 — one-colour puzzles -/

/-- C10: for a puzzle with fewer than two colours, `solve` immediately sets
`nsolved` to `ncells` and returns 1 (solved), whatever the line solver,
exhaustive-check and guessing collaborators would do and however much fuel
the loop is given: the cells, clues, history, job queue and counters are
never consulted or touched. -/
theorem C10_one_color_short_circuit
    (lro : ℕ → ℕ → List Cell → Option (List (ℕ × Finset ℕ)))
    (ls : List Cell → ℕ → ℕ → Bool) (guessF : PState → Option PState)
    (tryharder maybacktrack : Bool) (lfuel fuel : ℕ) (st : PState)
    (h : st.ncolor < 2) :
    solve lro ls guessF tryharder maybacktrack lfuel fuel st =
      some ({ st with nsolved := st.ncells }, 1) := by
  unfold solve
  rw [if_pos h]

/-- Witness for C10 at a concrete input: a one-colour puzzle whose clues
cannot be satisfied is still declared solved without running anything. -/
theorem C10_witness :
    solve lroW lsW gW true true 5 5 { stW with ncolor := 1 } =
      some ({ stW with ncolor := 1, nsolved := 2 }, 1) :=
  C10_one_color_short_circuit lroW lsW gW true true 5 5 { stW with ncolor := 1 } (by decide)

/-! ### Counting lemmas for the `nsolved` invariant -/

theorem countSolved_set (l : List Cell) (i : ℕ) (x : Cell) (h : i < l.length) :
    countSolved (l.set i x) + (if (l.getD i dCell).n = 1 then 1 else 0) =
      countSolved l + (if x.n = 1 then 1 else 0) := by
  induction l generalizing i with
  | nil => simp at h
  | cons a t ih =>
    cases i with
    | zero =>
      simp only [List.set, countSolved, List.countP_cons, List.getD_cons_zero]
      by_cases hx : x.n = 1 <;> by_cases ha : a.n = 1 <;> simp [hx, ha] <;> omega
    | succ m =>
      simp only [List.set, countSolved, List.countP_cons, List.getD_cons_succ]
      have hm : m < t.length := by simpa using h
      have := ih m hm
      simp only [countSolved, List.getD, List.get?_eq_getElem?] at this ⊢
      by_cases ha : a.n = 1 <;> simp [ha] <;> omega

theorem countSolved_pos (l : List Cell) (i : ℕ) (h : i < l.length)
    (h1 : (l.getD i dCell).n = 1) : 1 ≤ countSolved l := by
  have hmem : l.getD i dCell ∈ l := by
    rw [List.getD_eq_getElem l dCell h]
    exact List.getElem_mem h
  have : 0 < countSolved l := by
    unfold countSolved
    rw [List.countP_pos]
    exact ⟨_, hmem, by simpa using h1⟩
  omega

/-! ### Field-preservation lemmas -/

theorem add_job_core (st : PState) (d i : ℕ) :
    (add_job st d i).cells = st.cells ∧ (add_job st d i).nsolved = st.nsolved ∧
    (add_job st d i).history = st.history := by
  unfold add_job; split <;> exact ⟨rfl, rfl, rfl⟩

theorem add_jobs_core (st : PState) (idx : ℕ) :
    (add_jobs st idx).cells = st.cells ∧ (add_jobs st idx).nsolved = st.nsolved ∧
    (add_jobs st idx).history = st.history := by
  unfold add_jobs add_job; split <;> split <;> exact ⟨rfl, rfl, rfl⟩

theorem add_hist_core (st : PState) (idx : ℕ) (b : Bool) :
    (add_hist st idx b).cells = st.cells ∧ (add_hist st idx b).nsolved = st.nsolved ∧
    (add_hist st idx b).jobs = st.jobs := by
  unfold add_hist; split <;> exact ⟨rfl, rfl, rfl⟩

theorem guess_cell_core (st : PState) (idx c : ℕ) :
    (guess_cell st idx c).cells = st.cells.set idx { bits := {c}, n := 1 } ∧
    (guess_cell st idx c).nsolved = st.nsolved + 1 := by
  unfold guess_cell
  refine ⟨?_, ?_⟩
  · rw [(add_jobs_core _ _).1]
    rw [(add_hist_core st idx true).1]
  · rw [(add_jobs_core _ _).2.1]
    rw [(add_hist_core st idx true).2.1]

/-! ### Invariant preservation -/

theorem guess_cell_inv (st : PState) (idx c : ℕ) (hInv : Inv st)
    (hidx : idx < st.cells.length) (hn : (st.cells.getD idx dCell).n ≠ 1) :
    Inv (guess_cell st idx c) ∧ (guess_cell st idx c).nsolved = st.nsolved + 1 := by
  have hc := guess_cell_core st idx c
  refine ⟨?_, hc.2⟩
  unfold Inv
  rw [hc.1, hc.2]
  have hset := countSolved_set st.cells idx { bits := {c}, n := 1 } hidx
  rw [if_neg hn, if_pos rfl] at hset
  unfold Inv at hInv
  omega

theorem tightenCell_invOK (st : PState) (idx : ℕ) (nb : Finset ℕ)
    (hInv : Inv st) (hOK : CellsOK st)
    (hne : nb ∩ (st.cells.getD idx dCell).bits ≠ ∅) :
    Inv (tightenCell st idx nb) ∧ CellsOK (tightenCell st idx nb) ∧
    (tightenCell st idx nb).cells.length = st.cells.length := by
  unfold tightenCell
  by_cases hidx : idx < st.cells.length
  · rw [if_pos hidx]
    set cur := st.cells.getD idx dCell with hcur
    set nb2 := nb ∩ cur.bits with hnb2
    by_cases heq : nb2 = cur.bits
    · rw [if_pos heq]; exact ⟨hInv, hOK, rfl⟩
    · rw [if_neg heq]
      have hmem : cur ∈ st.cells := by
        rw [hcur, List.getD_eq_getElem st.cells dCell hidx]
        exact List.getElem_mem hidx
      have hcells : (add_hist st idx false).cells = st.cells := (add_hist_core _ _ _).1
      have hcurn : cur.n ≠ 1 := by
        intro h1
        have hcard : cur.bits.card = 1 := by rw [← hOK cur hmem, h1]
        have hsub : nb2 ⊆ cur.bits := Finset.inter_subset_right
        have : nb2 = cur.bits := by
          rcases Finset.card_eq_one.mp hcard with ⟨a, ha⟩
          rw [ha] at hsub ⊢
          rcases Finset.subset_singleton_iff.mp hsub with h0 | h0
          · exact absurd h0 hne
          · exact h0
        exact heq this
      have hset := countSolved_set st.cells idx { bits := nb2, n := nb2.card }
        hidx
      rw [if_neg hcurn] at hset
      rw [hnb2] at hset
      constructor
      · unfold Inv
        rw [(add_jobs_core _ _).1, (add_jobs_core _ _).2.1]
        simp only [hcells, (add_hist_core st idx false).2.1]
        by_cases h1 : nb2.card = 1
        · rw [if_pos ⟨h1, hcurn⟩]
          rw [if_pos h1] at hset
          unfold Inv at hInv
          omega
        · rw [if_neg (fun hh => h1 hh.1)]
          rw [if_neg h1] at hset
          unfold Inv at hInv
          omega
      constructor
      · intro cell hcl
        rw [(add_jobs_core _ _).1] at hcl
        simp only [hcells] at hcl
        rcases List.mem_or_eq_of_mem_set hcl with hmem2 | hx
        · exact hOK cell hmem2
        · rw [hx]
      · rw [(add_jobs_core _ _).1]
        simp only [hcells]
        exact List.length_set st.cells idx _
  · rw [if_neg hidx]; exact ⟨hInv, hOK, rfl⟩

theorem applyTight_invOK (tight : List (ℕ × Finset ℕ)) (st : PState)
    (hInv : Inv st) (hOK : CellsOK st) :
    Inv (applyTight tight st).1 ∧ CellsOK (applyTight tight st).1 := by
  induction tight generalizing st with
  | nil => exact ⟨hInv, hOK⟩
  | cons p rest ih =>
    obtain ⟨idx, nb⟩ := p
    simp only [applyTight]
    split
    · exact ⟨hInv, hOK⟩
    · rename_i hne
      have ht := tightenCell_invOK st idx nb hInv hOK hne
      exact ih _ ht.1 ht.2.1

theorem apply_lro_invOK (lro : ℕ → ℕ → List Cell → Option (List (ℕ × Finset ℕ)))
    (d i : ℕ) (st : PState) (hInv : Inv st) (hOK : CellsOK st) :
    Inv (apply_lro lro d i st).1 ∧ CellsOK (apply_lro lro d i st).1 := by
  unfold apply_lro
  cases lro d i st.cells with
  | none => exact ⟨hInv, hOK⟩
  | some tight => exact applyTight_invOK tight st hInv hOK

theorem logic_solve_invOK (lro : ℕ → ℕ → List Cell → Option (List (ℕ × Finset ℕ)))
    (fuel : ℕ) (st : PState) (out : PState × ℕ) (hInv : Inv st) (hOK : CellsOK st)
    (h : logic_solve lro fuel st = some out) : Inv out.1 ∧ CellsOK out.1 := by
  induction fuel generalizing st with
  | zero =>
    cases hj : st.jobs with
    | nil =>
      simp only [logic_solve, hj] at h
      cases h
      exact ⟨hInv, hOK⟩
    | cons p rest => simp [logic_solve, hj] at h
  | succ f ih =>
    cases hj : st.jobs with
    | nil =>
      simp only [logic_solve, hj] at h
      cases h
      exact ⟨hInv, hOK⟩
    | cons p rest =>
      obtain ⟨d, i⟩ := p
      simp only [logic_solve, hj] at h
      have hmid : Inv { st with jobs := rest, nlines := st.nlines + 1 } ∧
          CellsOK { st with jobs := rest, nlines := st.nlines + 1 } := ⟨hInv, hOK⟩
      have hres := apply_lro_invOK lro d i _ hmid.1 hmid.2
      by_cases hok : (apply_lro lro d i { st with jobs := rest, nlines := st.nlines + 1 }).2
      · rw [if_pos hok] at h
        exact ih _ hres.1 hres.2 h
      · rw [if_neg hok] at h
        cases h
        exact hres

/-- The four instrumentation counters the claims speak about, as one tuple:
`(nlines, guesses, probes, merges)`. -/
def ctrs (st : PState) : ℕ × ℕ × ℕ × ℕ := (st.nlines, st.guesses, st.probes, st.merges)

theorem add_job_ctrs (st : PState) (d i : ℕ) : ctrs (add_job st d i) = ctrs st := by
  unfold add_job; split <;> rfl

theorem add_jobs_ctrs (st : PState) (idx : ℕ) : ctrs (add_jobs st idx) = ctrs st := by
  unfold add_jobs add_job; split <;> split <;> rfl

theorem add_hist_ctrs (st : PState) (idx : ℕ) (b : Bool) : ctrs (add_hist st idx b) = ctrs st := by
  unfold add_hist; split <;> rfl

theorem set_getD_self (l : List Cell) (i : ℕ) (h : i < l.length) :
    l.set i (l.getD i dCell) = l := by
  induction l generalizing i with
  | nil => simp at h
  | cons a t ih =>
    cases i with
    | zero => rw [List.getD_cons_zero]; rfl
    | succ m =>
      have hm : m < t.length := by simpa using h
      rw [List.getD_cons_succ]
      show a :: t.set m (t.getD m dCell) = a :: t
      rw [ih m hm]

/-- Bookkeeping facts about the colour loop of `try_everything`: it leaves
the cell array, the history and the counters untouched (only the local
`realbit`/`realn` copies and the job queue change); `hits` only grows, and if
it did not grow nothing at all changed; eliminated colours come out of
`realbit` one per hit; and the cell's count `realn` ends at 1 with `nsolved`
incremented exactly when the `goto celldone` path marked the cell solved,
otherwise `nsolved` is untouched and `realn` is still not 1. -/
theorem tryColors_core (ls : List Cell → ℕ → ℕ → Bool) (idx : ℕ) (cs : List ℕ)
    (st : PState) (rb : Finset ℕ) (rn hits : ℕ) (hrn : rn ≠ 1) :
    (tryColors ls idx cs st rb rn hits).1.cells = st.cells ∧
    (tryColors ls idx cs st rb rn hits).1.history = st.history ∧
    ctrs (tryColors ls idx cs st rb rn hits).1 = ctrs st ∧
    hits ≤ (tryColors ls idx cs st rb rn hits).2.2.2 ∧
    ((tryColors ls idx cs st rb rn hits).2.2.2 = hits →
      tryColors ls idx cs st rb rn hits = (st, rb, rn, hits)) ∧
    (tryColors ls idx cs st rb rn hits).2.1 ⊆ rb ∧
    (tryColors ls idx cs st rb rn hits).2.2.2 + (tryColors ls idx cs st rb rn hits).2.1.card
      = hits + rb.card ∧
    (((tryColors ls idx cs st rb rn hits).2.2.1 = 1 ∧
        (tryColors ls idx cs st rb rn hits).1.nsolved = st.nsolved + 1) ∨
      ((tryColors ls idx cs st rb rn hits).2.2.1 ≠ 1 ∧
        (tryColors ls idx cs st rb rn hits).1.nsolved = st.nsolved)) := by
  induction cs generalizing st rb rn hits with
  | nil =>
    refine ⟨rfl, rfl, rfl, le_refl _, fun _ => rfl, Finset.Subset.refl _, rfl, Or.inr ⟨hrn, rfl⟩⟩
  | cons c cs ih =>
    by_cases hc : c ∈ rb
    · simp only [tryColors, if_pos hc]
      by_cases hok : ((List.range st.nset).all
          (fun k => ls (st.cells.set idx { bits := {c}, n := 1 }) k (lineOf st idx k))) = true
      · rw [if_pos hok]
        exact ih st rb rn hits hrn
      · rw [if_neg hok]
        have hcard : rb.card = (rb.erase c).card + 1 := by
          rw [Finset.card_erase_of_mem hc]
          have : 0 < rb.card := Finset.card_pos.mpr ⟨c, hc⟩
          omega
      -- the just-eliminated colour either solves the cell or the loop goes on
        by_cases h1 : rn - 1 = 1
        · rw [if_pos h1]
          have hj := add_jobs_core st idx
          refine ⟨hj.1, ?_, ?_, Nat.le_succ hits,
            fun hx => ((Nat.succ_ne_self hits) hx).elim, ?_, ?_, Or.inl ⟨h1, ?_⟩⟩
          · show (add_jobs st idx).history = st.history
            unfold add_jobs add_job; split <;> split <;> rfl
          · show ctrs (add_jobs st idx) = ctrs st
            exact add_jobs_ctrs st idx
          · exact Finset.Subset.trans (Finset.erase_subset c rb) (Finset.Subset.refl rb)
          · show hits + 1 + (rb.erase c).card = hits + rb.card
            omega
          · show (add_jobs st idx).nsolved + 1 = st.nsolved + 1
            rw [hj.2.1]
        · rw [if_neg h1]
          have hj := add_jobs_core st idx
          have hjh : (add_jobs st idx).history = st.history := by
            unfold add_jobs add_job; split <;> split <;> rfl
          have := ih (add_jobs st idx) (rb.erase c) (rn - 1) (hits + 1) h1
          refine ⟨by rw [this.1, hj.1], by rw [this.2.1, hjh], ?_, by omega, by omega, ?_, ?_, ?_⟩
          · rw [this.2.2.1, add_jobs_ctrs]
          · exact Finset.Subset.trans this.2.2.2.2.2.1 (Finset.erase_subset c rb)
          · have harith := this.2.2.2.2.2.2.1
            omega
          · rcases this.2.2.2.2.2.2.2 with ⟨ha, hb⟩ | ⟨ha, hb⟩
            · exact Or.inl ⟨ha, by rw [hb, hj.2.1]⟩
            · exact Or.inr ⟨ha, by rw [hb, hj.2.1]⟩
    · simp only [tryColors, if_neg hc]
      exact ih st rb rn hits hrn

/-- `teCell` preserves the `nsolved` invariant, the grid size, the history
and the counters; if it reports no elimination the state is unchanged. -/
theorem teCell_inv (ls : List Cell → ℕ → ℕ → Bool) (st : PState) (idx : ℕ)
    (hInv : Inv st) (hidx : idx < st.cells.length) :
    Inv (teCell ls st idx).1 ∧
    (teCell ls st idx).1.cells.length = st.cells.length ∧
    (teCell ls st idx).1.history = st.history ∧
    ctrs (teCell ls st idx).1 = ctrs st ∧
    ((teCell ls st idx).2 = 0 → (teCell ls st idx).1 = st) := by
  unfold teCell
  by_cases hn : (st.cells.getD idx dCell).n = 1
  · rw [if_pos hn]
    exact ⟨hInv, rfl, rfl, rfl, fun _ => rfl⟩
  · rw [if_neg hn]
    have hcore := tryColors_core ls idx (List.range st.ncolor) st
      (st.cells.getD idx dCell).bits (st.cells.getD idx dCell).n 0 hn
    set r := tryColors ls idx (List.range st.ncolor) st
      (st.cells.getD idx dCell).bits (st.cells.getD idx dCell).n 0 with hr
    have hset := countSolved_set st.cells idx { bits := r.2.1, n := r.2.2.1 } hidx
    rw [if_neg hn] at hset
    refine ⟨?_, ?_, hcore.2.1, hcore.2.2.1, ?_⟩
    · unfold Inv
      simp only [hcore.1]
      rcases hcore.2.2.2.2.2.2.2 with ⟨ha, hb⟩ | ⟨ha, hb⟩
      · rw [if_pos ha] at hset
        rw [hb]
        unfold Inv at hInv
        omega
      · rw [if_neg ha] at hset
        rw [hb]
        unfold Inv at hInv
        omega
    · simp only [hcore.1]
      exact List.length_set st.cells idx _
    · intro h0
      have hall := hcore.2.2.2.2.1 h0
      rw [hall]
      have hcell : Cell.mk (st.cells.getD idx dCell).bits (st.cells.getD idx dCell).n
          = st.cells.getD idx dCell := rfl
      show ({ st with cells := st.cells.set idx (Cell.mk (st.cells.getD idx dCell).bits (st.cells.getD idx dCell).n) } : PState) = st
      rw [hcell, set_getD_self st.cells idx hidx]

/-- The scan of `try_everything` preserves the `nsolved` invariant, the grid
size, the history and the counters; if no eliminations were found the state
is unchanged. -/
theorem teScan_inv (ls : List Cell → ℕ → ℕ → Bool) (l : List ℕ) (st : PState) (hits : ℕ)
    (hInv : Inv st) (hl : ∀ i ∈ l, i < st.cells.length) :
    Inv (teScan ls l st hits).1 ∧
    (teScan ls l st hits).1.cells.length = st.cells.length ∧
    (teScan ls l st hits).1.history = st.history ∧
    ctrs (teScan ls l st hits).1 = ctrs st ∧
    hits ≤ (teScan ls l st hits).2 ∧
    ((teScan ls l st hits).2 = hits → (teScan ls l st hits).1 = st) := by
  induction l generalizing st hits with
  | nil => exact ⟨hInv, rfl, rfl, rfl, le_refl _, fun _ => rfl⟩
  | cons idx rest ih =>
    simp only [teScan]
    have hidx : idx < st.cells.length := hl idx (List.mem_cons_self idx rest)
    have hc := teCell_inv ls st idx hInv hidx
    have hrest : ∀ i ∈ rest, i < (teCell ls st idx).1.cells.length := by
      intro i hi
      rw [hc.2.1]
      exact hl i (List.mem_cons_of_mem idx hi)
    have := ih (teCell ls st idx).1 (hits + (teCell ls st idx).2) hc.1 hrest
    refine ⟨this.1, by rw [this.2.1, hc.2.1], by rw [this.2.2.1, hc.2.2.1],
      by rw [this.2.2.2.1, hc.2.2.2.1], by omega, ?_⟩
    intro h0
    have hz : (teCell ls st idx).2 = 0 := by omega
    have hs := this.2.2.2.2.2 (by omega)
    rw [hs, hc.2.2.2.2 hz]

/-- `try_everything` preserves the `nsolved` invariant; with zero hits it is
the identity and it never records history. -/
theorem try_everything_inv (ls : List Cell → ℕ → ℕ → Bool) (st : PState) (hInv : Inv st) :
    Inv (try_everything ls st).1 ∧ (try_everything ls st).1.history = st.history ∧
    ctrs (try_everything ls st).1 = ctrs st ∧
    ((try_everything ls st).2 = 0 → (try_everything ls st).1 = st) := by
  unfold try_everything
  have := teScan_inv ls (List.range st.cells.length) st 0 hInv
    (fun i hi => List.mem_range.mp hi)
  exact ⟨this.1, this.2.2.1, this.2.2.2.1, this.2.2.2.2.2⟩

theorem restoreTop_inv (st : PState) (h : Hist) (hInv : Inv st)
    (hidx : h.cellIdx < st.cells.length) :
    Inv (restoreTop st h) ∧ (restoreTop st h).cells.length = st.cells.length ∧
    ctrs (restoreTop st h) = ctrs st ∧ (restoreTop st h).jobs = st.jobs ∧
    (restoreTop st h).plog = st.plog ∧ (restoreTop st h).history = st.history := by
  refine ⟨?_, List.length_set st.cells _ _, rfl, rfl, rfl, rfl⟩
  show st.nsolved + (if h.oldN = 1 then 1 else 0) -
      (if (st.cells.getD h.cellIdx dCell).n = 1 then 1 else 0) =
    countSolved (st.cells.set h.cellIdx (Cell.mk h.oldBits h.oldN))
  unfold Inv at hInv
  have hset := countSolved_set st.cells h.cellIdx (Cell.mk h.oldBits h.oldN) hidx
  have hmkn : (Cell.mk h.oldBits h.oldN).n = h.oldN := rfl
  rw [hmkn] at hset
  by_cases hc : (st.cells.getD h.cellIdx dCell).n = 1
  · have hpos := countSolved_pos st.cells h.cellIdx hidx hc
    rw [if_pos hc] at hset
    rw [if_pos hc]
    by_cases ho : h.oldN = 1
    · rw [if_pos ho] at hset
      rw [if_pos ho]
      omega
    · rw [if_neg ho] at hset
      rw [if_neg ho]
      omega
  · rw [if_neg hc] at hset
    rw [if_neg hc]
    by_cases ho : h.oldN = 1
    · rw [if_pos ho] at hset
      rw [if_pos ho]
      omega
    · rw [if_neg ho] at hset
      rw [if_neg ho]
      omega

theorem undoList_inv (l : List Hist) (st : PState) (hInv : Inv st)
    (hl : ∀ h ∈ l, h.cellIdx < st.cells.length) :
    Inv (undoList l st) ∧ (undoList l st).cells.length = st.cells.length ∧
    ctrs (undoList l st) = ctrs st ∧ (undoList l st).jobs = st.jobs ∧
    (undoList l st).plog = st.plog := by
  induction l generalizing st with
  | nil => exact ⟨hInv, rfl, rfl, rfl, rfl⟩
  | cons h rest ih =>
    simp only [undoList]
    have hidx : h.cellIdx < ({ st with history := rest } : PState).cells.length :=
      hl h (List.mem_cons_self h rest)
    have hr := restoreTop_inv { st with history := rest } h hInv hidx
    by_cases hb : h.branch = true
    · rw [if_pos hb]
      exact ⟨hr.1, hr.2.1, hr.2.2.1, hr.2.2.2.1, hr.2.2.2.2.1⟩
    · rw [if_neg hb]
      have hrest : ∀ g ∈ rest, g.cellIdx < (restoreTop { st with history := rest } h).cells.length := by
        intro g hg
        rw [hr.2.1]
        exact hl g (List.mem_cons_of_mem h hg)
      have := ih (restoreTop { st with history := rest } h) hr.1 hrest
      exact ⟨this.1,
        by rw [this.2.1, hr.2.1]; all_goals rfl,
        by rw [this.2.2.1, hr.2.2.1]; all_goals rfl,
        by rw [this.2.2.2.1, hr.2.2.2.1]; all_goals rfl,
        by rw [this.2.2.2.2, hr.2.2.2.2.1]; all_goals rfl⟩

theorem undo_inv (st : PState) (hInv : Inv st) (hh : HistIdxOK st) :
    Inv (undo st) ∧ (undo st).cells.length = st.cells.length ∧
    ctrs (undo st) = ctrs st ∧ (undo st).jobs = st.jobs ∧ (undo st).plog = st.plog :=
  undoList_inv st.history st hInv hh

theorem backtrackList_inv (l : List Hist) (st : PState) (hInv : Inv st)
    (hl : ∀ h ∈ l, h.cellIdx < st.cells.length) (st2 : PState)
    (hbt : backtrackList l st = some st2) :
    Inv st2 ∧ st2.cells.length = st.cells.length ∧ ctrs st2 = ctrs st := by
  induction l generalizing st with
  | nil => simp [backtrackList] at hbt
  | cons h rest ih =>
    simp only [backtrackList] at hbt
    have hidx : h.cellIdx < st.cells.length := hl h (List.mem_cons_self h rest)
    by_cases hb : h.branch = true
    · rw [if_pos hb] at hbt
      set cur := st.cells.getD h.cellIdx dCell with hcur
      set nb := h.oldBits \ cur.bits with hnb
      have hsetc := countSolved_set st.cells h.cellIdx (Cell.mk nb nb.card) hidx
      rw [← hcur] at hsetc
      have hInv1 : Inv ({ st with
          history := rest,
          cells := st.cells.set h.cellIdx (Cell.mk nb nb.card),
          nsolved := st.nsolved + (if nb.card = 1 then 1 else 0) -
            (if cur.n = 1 then 1 else 0) } : PState) := by
        show st.nsolved + (if nb.card = 1 then 1 else 0) - (if cur.n = 1 then 1 else 0) =
          countSolved (st.cells.set h.cellIdx (Cell.mk nb nb.card))
        unfold Inv at hInv
        have hmkn : (Cell.mk nb nb.card).n = nb.card := rfl
        rw [hmkn] at hsetc
        by_cases hc : cur.n = 1
        · have hpos := countSolved_pos st.cells h.cellIdx hidx (hcur ▸ hc)
          rw [if_pos hc] at hsetc
          rw [if_pos hc]
          by_cases h1 : nb.card = 1
          · rw [if_pos h1] at hsetc
            rw [if_pos h1]
            omega
          · rw [if_neg h1] at hsetc
            rw [if_neg h1]
            omega
        · rw [if_neg hc] at hsetc
          rw [if_neg hc]
          by_cases h1 : nb.card = 1
          · rw [if_pos h1] at hsetc
            rw [if_pos h1]
            omega
          · rw [if_neg h1] at hsetc
            rw [if_neg h1]
            omega
      have hj := add_jobs_core { st with
          history := rest,
          cells := st.cells.set h.cellIdx (Cell.mk nb nb.card),
          nsolved := st.nsolved + (if nb.card = 1 then 1 else 0) -
            (if cur.n = 1 then 1 else 0) } h.cellIdx
      have hInv2 : Inv (add_jobs { st with
          history := rest,
          cells := st.cells.set h.cellIdx (Cell.mk nb nb.card),
          nsolved := st.nsolved + (if nb.card = 1 then 1 else 0) -
            (if cur.n = 1 then 1 else 0) } h.cellIdx) := by
        unfold Inv at hInv1 ⊢
        rw [hj.1, hj.2.1]
        exact hInv1
      by_cases hemp : nb = ∅
      · rw [if_pos hemp] at hbt
        have hlen2 : (flush_jobs (add_jobs { st with
            history := rest,
            cells := st.cells.set h.cellIdx (Cell.mk nb nb.card),
            nsolved := st.nsolved + (if nb.card = 1 then 1 else 0) -
              (if cur.n = 1 then 1 else 0) } h.cellIdx)).cells.length = st.cells.length := by
          show (add_jobs _ h.cellIdx).cells.length = st.cells.length
          rw [hj.1]
          exact List.length_set st.cells _ _
        have hrest : ∀ g ∈ rest, g.cellIdx < (flush_jobs (add_jobs { st with
            history := rest,
            cells := st.cells.set h.cellIdx (Cell.mk nb nb.card),
            nsolved := st.nsolved + (if nb.card = 1 then 1 else 0) -
              (if cur.n = 1 then 1 else 0) } h.cellIdx)).cells.length := by
          intro g hg
          rw [hlen2]
          exact hl g (List.mem_cons_of_mem h hg)
        have := ih (flush_jobs (add_jobs { st with
            history := rest,
            cells := st.cells.set h.cellIdx (Cell.mk nb nb.card),
            nsolved := st.nsolved + (if nb.card = 1 then 1 else 0) -
              (if cur.n = 1 then 1 else 0) } h.cellIdx)) hInv2 hrest hbt
        refine ⟨this.1, by rw [this.2.1, hlen2], ?_⟩
        rw [this.2.2]
        show ctrs (add_jobs { st with
            history := rest,
            cells := st.cells.set h.cellIdx (Cell.mk nb nb.card),
            nsolved := st.nsolved + (if nb.card = 1 then 1 else 0) -
              (if cur.n = 1 then 1 else 0) } h.cellIdx) = ctrs st
        rw [add_jobs_ctrs]
        rfl
      · rw [if_neg hemp] at hbt
        cases hbt
        refine ⟨hInv2, ?_, ?_⟩
        · rw [hj.1]
          exact List.length_set st.cells _ _
        · rw [add_jobs_ctrs]
          rfl
    · rw [if_neg hb] at hbt
      have hr := restoreTop_inv { st with history := rest } h hInv hidx
      have hrest : ∀ g ∈ rest, g.cellIdx < (restoreTop { st with history := rest } h).cells.length := by
        intro g hg
        rw [hr.2.1]
        exact hl g (List.mem_cons_of_mem h hg)
      have := ih (restoreTop { st with history := rest } h) hr.1 hrest hbt
      exact ⟨this.1, by rw [this.2.1, hr.2.1]; all_goals rfl,
        by rw [this.2.2, hr.2.2.1]; all_goals rfl⟩

theorem backtrack_inv (st : PState) (hInv : Inv st) (hh : HistIdxOK st) (st2 : PState)
    (hbt : backtrack st = some st2) : Inv st2 ∧ st2.cells.length = st.cells.length ∧
    ctrs st2 = ctrs st :=
  backtrackList_inv st.history (flush_jobs st) hInv hh st2 hbt

theorem merge_check_invOK (st : PState) (hInv : Inv st) (hOK : CellsOK st) :
    Inv (merge_check st).1 ∧ CellsOK (merge_check st).1 ∧ ctrs (merge_check st).1 = ctrs st := by
  unfold merge_check
  have key : ∀ (elems : List MergeElem) (acc : PState × Bool),
      Inv acc.1 → CellsOK acc.1 → ctrs acc.1 = ctrs st →
      Inv (elems.foldl (fun acc e =>
        if e.maxc = st.mergeSt.cur then
          let cur := acc.1.cells.getD e.cellIdx dCell
          let nb := cur.bits \ e.bits
          if nb = cur.bits ∨ nb = ∅ then acc
          else (tightenCell acc.1 e.cellIdx nb, true)
        else acc) acc).1 ∧
      CellsOK (elems.foldl (fun acc e =>
        if e.maxc = st.mergeSt.cur then
          let cur := acc.1.cells.getD e.cellIdx dCell
          let nb := cur.bits \ e.bits
          if nb = cur.bits ∨ nb = ∅ then acc
          else (tightenCell acc.1 e.cellIdx nb, true)
        else acc) acc).1 ∧
      ctrs (elems.foldl (fun acc e =>
        if e.maxc = st.mergeSt.cur then
          let cur := acc.1.cells.getD e.cellIdx dCell
          let nb := cur.bits \ e.bits
          if nb = cur.bits ∨ nb = ∅ then acc
          else (tightenCell acc.1 e.cellIdx nb, true)
        else acc) acc).1 = ctrs st := by
    intro elems
    induction elems with
    | nil => intro acc h1 h2 h3; exact ⟨h1, h2, h3⟩
    | cons e rest ih =>
      intro acc h1 h2 h3
      simp only [List.foldl_cons]
      by_cases hm : e.maxc = st.mergeSt.cur
      · rw [if_pos hm]
        set cur := acc.1.cells.getD e.cellIdx dCell with hcur
        by_cases hskip : cur.bits \ e.bits = cur.bits ∨ cur.bits \ e.bits = ∅
        · rw [if_pos hskip]
          exact ih acc h1 h2 h3
        · rw [if_neg hskip]
          push_neg at hskip
          have hne : (cur.bits \ e.bits) ∩ (acc.1.cells.getD e.cellIdx dCell).bits ≠ ∅ := by
            rw [← hcur]
            rw [Finset.inter_eq_left.mpr (Finset.sdiff_subset)]
            exact hskip.2
          have ht := tightenCell_invOK acc.1 e.cellIdx (cur.bits \ e.bits) h1 h2 hne
          have hct : ctrs (tightenCell acc.1 e.cellIdx (cur.bits \ e.bits)) = ctrs st := by
            unfold tightenCell
            by_cases hidx2 : e.cellIdx < acc.1.cells.length
            · rw [if_pos hidx2]
              by_cases heq2 : (cur.bits \ e.bits) ∩ (acc.1.cells.getD e.cellIdx dCell).bits
                  = (acc.1.cells.getD e.cellIdx dCell).bits
              · rw [if_pos heq2]
                exact h3
              · rw [if_neg heq2]
                rw [add_jobs_ctrs]
                show ctrs (add_hist acc.1 e.cellIdx false) = ctrs st
                rw [add_hist_ctrs]
                exact h3
            · rw [if_neg hidx2]
              exact h3
          exact ih _ ht.1 ht.2.1 hct
      · rw [if_neg hm]
        exact ih acc h1 h2 h3
  have hk := key st.mergeSt.elems (st, false) hInv hOK rfl
  exact ⟨hk.1, hk.2.1, hk.2.2⟩

/-! ### C1 — the `nsolved` bookkeeping invariant -/

/-- C1: at the boundary of each core operation the counter `nsolved` equals
the number of cells with possibility count 1.  `guess_cell` (called on an
in-range, unsolved cell, as all its callers do) preserves the invariant and
increments `nsolved` by exactly one — the cell it collapses; `try_everything`
preserves it even though it overwrites a cell's `(n, bits)` during its
trials; `logic_solve` (with the spec-modelled line solver), `backtrack`,
`undo` and `merge_check` — the constituents of a probe — preserve it as
well. -/
theorem C1_nsolved_invariant :
    (∀ st idx c, Inv st → idx < st.cells.length → (st.cells.getD idx dCell).n ≠ 1 →
      Inv (guess_cell st idx c) ∧ (guess_cell st idx c).nsolved = st.nsolved + 1) ∧
    (∀ ls st, Inv st → Inv (try_everything ls st).1) ∧
    (∀ lro fuel st out, Inv st → CellsOK st → logic_solve lro fuel st = some out →
      Inv out.1) ∧
    (∀ st st2, Inv st → HistIdxOK st → backtrack st = some st2 → Inv st2) ∧
    (∀ st, Inv st → HistIdxOK st → Inv (undo st)) ∧
    (∀ st, Inv st → CellsOK st → Inv (merge_check st).1) := by
  refine ⟨guess_cell_inv, ?_, ?_, ?_, ?_, ?_⟩
  · intro ls st hInv
    exact (try_everything_inv ls st hInv).1
  · intro lro fuel st out hInv hOK h
    exact (logic_solve_invOK lro fuel st out hInv hOK h).1
  · intro st st2 hInv hh hbt
    exact (backtrack_inv st hInv hh st2 hbt).1
  · intro st hInv hh
    exact (undo_inv st hInv hh).1
  · intro st hInv hOK
    exact (merge_check_invOK st hInv hOK).1

/-- Concrete state with one committed guess in the history (cell 0 was
guessed colour 1 from prior possibilities `{0, 1}`). -/
def stB : PState := { stW with
  cells := [{ bits := {1}, n := 1 }, { bits := {0, 1}, n := 2 }],
  nsolved := 1,
  history := [{ branch := true, cellIdx := 0, oldN := 2, oldBits := {0, 1} }] }

/-- The result of backtracking `stB`: the guess inverted to colour 0. -/
def stB2 : PState := { stW with
  cells := [{ bits := {0}, n := 1 }, { bits := {0, 1}, n := 2 }],
  nsolved := 1,
  jobs := [(0, 0), (1, 0)] }

/-- Concrete state with a fully-contributed merge element on cell 0. -/
def stM : PState := { stW with
  mergeSt := { cur := 2, elems := [{ cellIdx := 0, maxc := 2, bits := {0} }] } }

/-- Witness for C1 at concrete inputs: each conjunct applied to a small
state on which its hypotheses hold by computation. -/
theorem C1_witness :
    (Inv (guess_cell stW 0 1) ∧ (guess_cell stW 0 1).nsolved = stW.nsolved + 1) ∧
    Inv (try_everything lsW stW).1 ∧
    Inv (({ stW with jobs := [], nlines := 1 } : PState), 1).1 ∧
    Inv stB2 ∧
    Inv (undo stB) ∧
    Inv (merge_check stM).1 :=
  ⟨C1_nsolved_invariant.1 stW 0 1 (by decide) (by decide) (by decide),
   C1_nsolved_invariant.2.1 lsW stW (by decide),
   C1_nsolved_invariant.2.2.1 lroW 1 { stW with jobs := [(0, 0)] }
     (({ stW with jobs := [], nlines := 1 } : PState), 1) (by decide) (by decide) (by decide),
   C1_nsolved_invariant.2.2.2.1 stB stB2 (by decide) (by decide) (by decide),
   C1_nsolved_invariant.2.2.2.2.1 stB (by decide) (by decide),
   C1_nsolved_invariant.2.2.2.2.2 stM (by decide) (by decide)⟩

/-! ### Counter bookkeeping for `logic_solve` -/

theorem tightenCell_ctrs (st : PState) (idx : ℕ) (nb : Finset ℕ) :
    ctrs (tightenCell st idx nb) = ctrs st := by
  unfold tightenCell
  by_cases hidx : idx < st.cells.length
  · rw [if_pos hidx]
    by_cases heq : nb ∩ (st.cells.getD idx dCell).bits = (st.cells.getD idx dCell).bits
    · rw [if_pos heq]
    · rw [if_neg heq]
      rw [add_jobs_ctrs]
      show ctrs (add_hist st idx false) = ctrs st
      rw [add_hist_ctrs]
  · rw [if_neg hidx]

theorem applyTight_ctrs (tight : List (ℕ × Finset ℕ)) (st : PState) :
    ctrs (applyTight tight st).1 = ctrs st := by
  induction tight generalizing st with
  | nil => rfl
  | cons p rest ih =>
    obtain ⟨idx, nb⟩ := p
    simp only [applyTight]
    split
    · rfl
    · rw [ih (tightenCell st idx nb), tightenCell_ctrs]

theorem apply_lro_ctrs (lro : ℕ → ℕ → List Cell → Option (List (ℕ × Finset ℕ)))
    (d i : ℕ) (st : PState) : ctrs (apply_lro lro d i st).1 = ctrs st := by
  unfold apply_lro
  cases lro d i st.cells with
  | none => rfl
  | some tight => exact applyTight_ctrs tight st

/-- `logic_solve` touches `nlines` only among the counters, and never
decreases it. -/
theorem logic_solve_counters (lro : ℕ → ℕ → List Cell → Option (List (ℕ × Finset ℕ)))
    (fuel : ℕ) (st : PState) (out : PState × ℕ) (h : logic_solve lro fuel st = some out) :
    out.1.guesses = st.guesses ∧ out.1.probes = st.probes ∧ out.1.merges = st.merges ∧
    st.nlines ≤ out.1.nlines := by
  induction fuel generalizing st with
  | zero =>
    cases hj : st.jobs with
    | nil =>
      simp only [logic_solve, hj] at h
      cases h
      exact ⟨rfl, rfl, rfl, le_refl _⟩
    | cons p rest => simp [logic_solve, hj] at h
  | succ f ih =>
    cases hj : st.jobs with
    | nil =>
      simp only [logic_solve, hj] at h
      cases h
      exact ⟨rfl, rfl, rfl, le_refl _⟩
    | cons p rest =>
      obtain ⟨d, i⟩ := p
      simp only [logic_solve, hj] at h
      have hc := apply_lro_ctrs lro d i { st with jobs := rest, nlines := st.nlines + 1 }
      have hc1 : (apply_lro lro d i { st with jobs := rest, nlines := st.nlines + 1 }).1.guesses
          = st.guesses := congrArg (fun t => t.2.1) hc
      have hc2 : (apply_lro lro d i { st with jobs := rest, nlines := st.nlines + 1 }).1.probes
          = st.probes := congrArg (fun t => t.2.2.1) hc
      have hc3 : (apply_lro lro d i { st with jobs := rest, nlines := st.nlines + 1 }).1.merges
          = st.merges := congrArg (fun t => t.2.2.2) hc
      have hc4 : (apply_lro lro d i { st with jobs := rest, nlines := st.nlines + 1 }).1.nlines
          = st.nlines + 1 := congrArg (fun t => t.1) hc
      by_cases hok : (apply_lro lro d i { st with jobs := rest, nlines := st.nlines + 1 }).2
      · rw [if_pos hok] at h
        have := ih _ h
        refine ⟨by rw [this.1, hc1], by rw [this.2.1, hc2], by rw [this.2.2.1, hc3], ?_⟩
        have := this.2.2.2
        omega
      · rw [if_neg hok] at h
        cases h
        refine ⟨hc1, hc2, hc3, ?_⟩
        show st.nlines ≤ (apply_lro lro d i { st with jobs := rest, nlines := st.nlines + 1 }).1.nlines
        omega

/-! ### Per-colour characterisation of `try_everything` -/

theorem getD_set_self (l : List Cell) (i : ℕ) (x : Cell) (h : i < l.length) :
    (l.set i x).getD i dCell = x := by
  rw [List.getD_eq_getElem _ _ (by simpa using h)]
  simp

theorem getD_set_ne (l : List Cell) (i j : ℕ) (x : Cell) (h : i ≠ j) :
    (l.set i x).getD j dCell = l.getD j dCell := by
  simp [List.getD, List.getElem?_set_ne h]

/-- The crossing-line test `try_everything` makes for one trial colour: run
`left_solve` on every crossing line of the cell with the cell tentatively set
to colour `c` alone; `true` iff every line still admits a placement. -/
def teTest (ls : List Cell → ℕ → ℕ → Bool) (st : PState) (idx c : ℕ) : Bool :=
  (List.range st.nset).all
    (fun k => ls (st.cells.set idx { bits := {c}, n := 1 }) k (lineOf st idx k))

theorem add_jobs_statics (st : PState) (idx : ℕ) :
    (add_jobs st idx).nset = st.nset ∧ (add_jobs st idx).ncols = st.ncols := by
  unfold add_jobs add_job; split <;> split <;> exact ⟨rfl, rfl⟩

theorem teTest_add_jobs (ls : List Cell → ℕ → ℕ → Bool) (st : PState) (idx2 idx c : ℕ) :
    teTest ls (add_jobs st idx2) idx c = teTest ls st idx c := by
  unfold teTest lineOf
  rw [(add_jobs_core st idx2).1, (add_jobs_statics st idx2).1, (add_jobs_statics st idx2).2]

/-- Which colours survive the colour loop of `try_everything`: a colour is
removed only if it was in the processed list and its trial failed some
crossing line; a colour whose trial succeeds always survives; and unless the
loop stopped early because the cell became solved (`realn` reached 1), every
processed possible colour whose trial fails is removed. -/
theorem tryColors_mem (ls : List Cell → ℕ → ℕ → Bool) (idx : ℕ) (cs : List ℕ)
    (st : PState) (rb : Finset ℕ) (rn hits : ℕ) :
    (∀ c ∈ rb, c ∉ (tryColors ls idx cs st rb rn hits).2.1 →
      c ∈ cs ∧ teTest ls st idx c = false) ∧
    (∀ c ∈ rb, teTest ls st idx c = true → c ∈ (tryColors ls idx cs st rb rn hits).2.1) ∧
    ((tryColors ls idx cs st rb rn hits).2.2.1 ≠ 1 →
      ∀ c ∈ cs, c ∈ rb → teTest ls st idx c = false →
        c ∉ (tryColors ls idx cs st rb rn hits).2.1) := by
  induction cs generalizing st rb rn hits with
  | nil =>
    refine ⟨fun c hc hnc => absurd hc hnc, fun c hc _ => hc, fun _ c hc => absurd hc (by simp)⟩
  | cons c0 cs ih =>
    by_cases hc0 : c0 ∈ rb
    · simp only [tryColors, if_pos hc0]
      by_cases hok : ((List.range st.nset).all
          (fun k => ls (st.cells.set idx { bits := {c0}, n := 1 }) k (lineOf st idx k))) = true
      · rw [if_pos hok]
        have hok2 : teTest ls st idx c0 = true := hok
        have hi := ih st rb rn hits
        refine ⟨fun c hc hnc => ?_, hi.2.1, fun hrn c hc hcrb hcf => ?_⟩
        · have := hi.1 c hc hnc
          exact ⟨List.mem_cons_of_mem c0 this.1, this.2⟩
        · rcases List.mem_cons.mp hc with hceq | hcs
          · rw [hceq] at hcf
            rw [hok2] at hcf
            cases hcf
          · exact hi.2.2 hrn c hcs hcrb hcf
      · rw [if_neg hok]
        have hok2 : teTest ls st idx c0 = false := Bool.eq_false_iff.mpr hok
        have hcard0 : 0 < rb.card := Finset.card_pos.mpr ⟨c0, hc0⟩
        by_cases h1 : rn - 1 = 1
        · rw [if_pos h1]
          refine ⟨fun c hc hnc => ?_, fun c hc hct => ?_, fun hrn c hc hcrb hcf => ?_⟩
          · by_cases hceq : c = c0
            · exact ⟨by rw [hceq]; exact List.mem_cons_self c0 cs, by rw [hceq]; exact hok2⟩
            · exact absurd (Finset.mem_erase.mpr ⟨hceq, hc⟩) hnc
          · have hne : c ≠ c0 := by
              intro hceq
              rw [hceq, hok2] at hct
              cases hct
            exact Finset.mem_erase.mpr ⟨hne, hc⟩
          · exact absurd h1 hrn
        · rw [if_neg h1]
          have hi := ih (add_jobs st idx) (rb.erase c0) (rn - 1) (hits + 1)
          have hsub := (tryColors_core ls idx cs (add_jobs st idx) (rb.erase c0)
            (rn - 1) (hits + 1) h1).2.2.2.2.2.1
          have hc0out : c0 ∉ (tryColors ls idx cs (add_jobs st idx) (rb.erase c0)
              (rn - 1) (hits + 1)).2.1 := by
            intro hmem
            exact absurd (hsub hmem) (Finset.not_mem_erase c0 rb)
          refine ⟨fun c hc hnc => ?_, fun c hc hct => ?_, fun hrn c hc hcrb hcf => ?_⟩
          · by_cases hceq : c = c0
            · exact ⟨by rw [hceq]; exact List.mem_cons_self c0 cs, by rw [hceq]; exact hok2⟩
            · have := hi.1 c (Finset.mem_erase.mpr ⟨hceq, hc⟩) hnc
              rw [teTest_add_jobs] at this
              exact ⟨List.mem_cons_of_mem c0 this.1, this.2⟩
          · have hne : c ≠ c0 := by
              intro hceq
              rw [hceq, hok2] at hct
              cases hct
            refine hi.2.1 c (Finset.mem_erase.mpr ⟨hne, hc⟩) ?_
            rw [teTest_add_jobs]
            exact hct
          · by_cases hceq : c = c0
            · rw [hceq]
              exact hc0out
            · rcases List.mem_cons.mp hc with hceq2 | hcs
              · exact absurd hceq2 hceq
              · refine hi.2.2 hrn c hcs (Finset.mem_erase.mpr ⟨hceq, hcrb⟩) ?_
                rw [teTest_add_jobs]
                exact hcf
    · simp only [tryColors, if_neg hc0]
      have hi := ih st rb rn hits
      refine ⟨fun c hc hnc => ?_, hi.2.1, fun hrn c hc hcrb hcf => ?_⟩
      · have := hi.1 c hc hnc
        exact ⟨List.mem_cons_of_mem c0 this.1, this.2⟩
      · rcases List.mem_cons.mp hc with hceq | hcs
        · rw [hceq] at hcrb
          exact absurd hcrb hc0
        · exact hi.2.2 hrn c hcs hcrb hcf

/-- Size, history, counter and zero-hit facts about `teCell` that need no
invariant hypothesis. -/
theorem teCell_basic (ls : List Cell → ℕ → ℕ → Bool) (st : PState) (idx : ℕ)
    (hidx : idx < st.cells.length) :
    (teCell ls st idx).1.cells.length = st.cells.length ∧
    (teCell ls st idx).1.history = st.history ∧
    ctrs (teCell ls st idx).1 = ctrs st ∧
    ((teCell ls st idx).2 = 0 → (teCell ls st idx).1 = st) := by
  unfold teCell
  by_cases hn : (st.cells.getD idx dCell).n = 1
  · rw [if_pos hn]
    exact ⟨rfl, rfl, rfl, fun _ => rfl⟩
  · rw [if_neg hn]
    have hcore := tryColors_core ls idx (List.range st.ncolor) st
      (st.cells.getD idx dCell).bits (st.cells.getD idx dCell).n 0 hn
    set r := tryColors ls idx (List.range st.ncolor) st
      (st.cells.getD idx dCell).bits (st.cells.getD idx dCell).n 0 with hr
    refine ⟨?_, hcore.2.1, hcore.2.2.1, ?_⟩
    · simp only [hcore.1]
      exact List.length_set st.cells idx _
    · intro h0
      have hall := hcore.2.2.2.2.1 h0
      rw [hall]
      have hcell : Cell.mk (st.cells.getD idx dCell).bits (st.cells.getD idx dCell).n
          = st.cells.getD idx dCell := rfl
      show ({ st with cells := st.cells.set idx (Cell.mk (st.cells.getD idx dCell).bits (st.cells.getD idx dCell).n) } : PState) = st
      rw [hcell, set_getD_self st.cells idx hidx]

/-- Size, history and zero-hit facts about the `try_everything` scan. -/
theorem teScan_basic (ls : List Cell → ℕ → ℕ → Bool) (l : List ℕ) (st : PState) (hits : ℕ)
    (hl : ∀ i ∈ l, i < st.cells.length) :
    (teScan ls l st hits).1.cells.length = st.cells.length ∧
    (teScan ls l st hits).1.history = st.history ∧
    hits ≤ (teScan ls l st hits).2 ∧
    ((teScan ls l st hits).2 = hits → (teScan ls l st hits).1 = st) := by
  induction l generalizing st hits with
  | nil => exact ⟨rfl, rfl, le_refl _, fun _ => rfl⟩
  | cons idx rest ih =>
    simp only [teScan]
    have hidx : idx < st.cells.length := hl idx (List.mem_cons_self idx rest)
    have hc := teCell_basic ls st idx hidx
    have hrest : ∀ i ∈ rest, i < (teCell ls st idx).1.cells.length := by
      intro i hi
      rw [hc.1]
      exact hl i (List.mem_cons_of_mem idx hi)
    have := ih (teCell ls st idx).1 (hits + (teCell ls st idx).2) hrest
    refine ⟨by rw [this.1, hc.1], by rw [this.2.1, hc.2.1], by omega, ?_⟩
    intro h0
    have hz : (teCell ls st idx).2 = 0 := by omega
    have hs := this.2.2.2 (by omega)
    rw [hs, hc.2.2.2 hz]

/-- `try_everything` reporting zero hits changed nothing. -/
theorem try_everything_zero (ls : List Cell → ℕ → ℕ → Bool) (st : PState)
    (h : (try_everything ls st).2 = 0) : (try_everything ls st).1 = st := by
  have := teScan_basic ls (List.range st.cells.length) st 0
    (fun i hi => List.mem_range.mp hi)
  exact this.2.2.2 h

/-- How one unsolved cell comes out of `teCell`: only the cell itself changes
and no history is recorded; surviving colours are a subset of the prior ones;
a colour is removed only if its trial (some crossing line rejecting the cell
tentatively set to that colour alone) failed; a colour whose trial succeeds
survives; unless the eliminations left the cell with a single colour, every
possible colour in range whose trial fails is removed; and the reported hits
count the removals exactly. -/
theorem teCell_colors (ls : List Cell → ℕ → ℕ → Bool) (st : PState) (idx : ℕ)
    (hidx : idx < st.cells.length) (hn : (st.cells.getD idx dCell).n ≠ 1) :
    ((teCell ls st idx).1.cells.getD idx dCell).bits ⊆ (st.cells.getD idx dCell).bits ∧
    (∀ c ∈ (st.cells.getD idx dCell).bits,
      c ∉ ((teCell ls st idx).1.cells.getD idx dCell).bits →
      c < st.ncolor ∧ teTest ls st idx c = false) ∧
    (∀ c ∈ (st.cells.getD idx dCell).bits, teTest ls st idx c = true →
      c ∈ ((teCell ls st idx).1.cells.getD idx dCell).bits) ∧
    (((teCell ls st idx).1.cells.getD idx dCell).n ≠ 1 →
      ∀ c, c < st.ncolor → c ∈ (st.cells.getD idx dCell).bits →
        teTest ls st idx c = false →
        c ∉ ((teCell ls st idx).1.cells.getD idx dCell).bits) ∧
    (teCell ls st idx).2 + ((teCell ls st idx).1.cells.getD idx dCell).bits.card
      = (st.cells.getD idx dCell).bits.card ∧
    (∀ j, j ≠ idx → (teCell ls st idx).1.cells.getD j dCell = st.cells.getD j dCell) ∧
    (teCell ls st idx).1.history = st.history := by
  have hbasic := teCell_basic ls st idx hidx
  unfold teCell
  rw [if_neg hn]
  have hcore := tryColors_core ls idx (List.range st.ncolor) st
    (st.cells.getD idx dCell).bits (st.cells.getD idx dCell).n 0 hn
  have hmem := tryColors_mem ls idx (List.range st.ncolor) st
    (st.cells.getD idx dCell).bits (st.cells.getD idx dCell).n 0
  set r := tryColors ls idx (List.range st.ncolor) st
    (st.cells.getD idx dCell).bits (st.cells.getD idx dCell).n 0 with hr
  have hcell : (({ r.1 with cells := r.1.cells.set idx (Cell.mk r.2.1 r.2.2.1) } : PState),
      r.2.2.2).1.cells.getD idx dCell = Cell.mk r.2.1 r.2.2.1 := by
    show (r.1.cells.set idx (Cell.mk r.2.1 r.2.2.1)).getD idx dCell = Cell.mk r.2.1 r.2.2.1
    rw [hcore.1]
    exact getD_set_self st.cells idx _ hidx
  rw [hcell]
  refine ⟨?_, ?_, ?_, ?_, ?_, ?_, hcore.2.1⟩
  · exact hcore.2.2.2.2.2.1
  · intro c hc hnc
    have := hmem.1 c hc hnc
    exact ⟨List.mem_range.mp this.1, this.2⟩
  · intro c hc hct
    exact hmem.2.1 c hc hct
  · intro hrn c hclt hc hcf
    exact hmem.2.2 hrn c (List.mem_range.mpr hclt) hc hcf
  · show r.2.2.2 + (Cell.mk r.2.1 r.2.2.1).bits.card = (st.cells.getD idx dCell).bits.card
    have harith := hcore.2.2.2.2.2.2.1
    have hb : (Cell.mk r.2.1 r.2.2.1).bits.card = r.2.1.card := rfl
    rw [hb]
    omega
  · intro j hj
    show (r.1.cells.set idx (Cell.mk r.2.1 r.2.2.1)).getD j dCell = st.cells.getD j dCell
    rw [hcore.1]
    exact getD_set_ne st.cells idx j _ (fun he => hj he.symm)

/-! ### C3 — `try_everything` -/

/-- C3: for each unsolved cell `try_everything` tries each colour the cell
may still take by tentatively setting the cell to that colour alone and
checking every crossing line (`teTest`); it removes a colour exactly when
some crossing line admits no placement under that trial (stopping early only
when the cell collapses to one colour); it writes the saved settings back
(every other cell is untouched), records no history, and counts one hit per
elimination; and `solve` resumes its propagation loop on the
`try_everything` state whenever the hit count is positive. -/
theorem C3_try_everything :
    (∀ ls st idx, idx < st.cells.length → (st.cells.getD idx dCell).n ≠ 1 →
      ((teCell ls st idx).1.cells.getD idx dCell).bits ⊆ (st.cells.getD idx dCell).bits ∧
      (∀ c ∈ (st.cells.getD idx dCell).bits,
        c ∉ ((teCell ls st idx).1.cells.getD idx dCell).bits →
        c < st.ncolor ∧ teTest ls st idx c = false) ∧
      (∀ c ∈ (st.cells.getD idx dCell).bits, teTest ls st idx c = true →
        c ∈ ((teCell ls st idx).1.cells.getD idx dCell).bits) ∧
      (((teCell ls st idx).1.cells.getD idx dCell).n ≠ 1 →
        ∀ c, c < st.ncolor → c ∈ (st.cells.getD idx dCell).bits →
          teTest ls st idx c = false →
          c ∉ ((teCell ls st idx).1.cells.getD idx dCell).bits) ∧
      (teCell ls st idx).2 + ((teCell ls st idx).1.cells.getD idx dCell).bits.card
        = (st.cells.getD idx dCell).bits.card ∧
      (∀ j, j ≠ idx → (teCell ls st idx).1.cells.getD j dCell = st.cells.getD j dCell)) ∧
    (∀ ls st, (try_everything ls st).1.history = st.history) ∧
    (∀ lro ls guessF maybacktrack lfuel f st st1,
      logic_solve lro lfuel st = some (st1, 1) → st1.nsolved ≠ st1.ncells →
      st1.history = [] → 0 < (try_everything ls st1).2 →
      solveLoop lro ls guessF true maybacktrack lfuel (Nat.succ f) st =
        solveLoop lro ls guessF true maybacktrack lfuel f (try_everything ls st1).1) := by
  refine ⟨?_, ?_, ?_⟩
  · intro ls st idx hidx hn
    have := teCell_colors ls st idx hidx hn
    exact ⟨this.1, this.2.1, this.2.2.1, this.2.2.2.1, this.2.2.2.2.1, this.2.2.2.2.2.1⟩
  · intro ls st
    exact (teScan_basic ls (List.range st.cells.length) st 0
      (fun i hi => List.mem_range.mp hi)).2.1
  · intro lro ls guessF maybacktrack lfuel f st st1 hq hns hh hhits
    simp only [solveLoop, hq, if_true, true_and]
    rw [if_neg hns]
    have hco : (if st1.history = [] then try_everything ls st1 else (st1, 0))
        = try_everything ls st1 := if_pos hh
    rw [hco]
    rw [if_pos ⟨hh, hhits⟩]

/-- Witness for C3: the cell-level part at a concrete unsolved cell, and the
resume part with a line solver that rejects everything, so the exhaustive
check makes eliminations and the driver loops on its state. -/
theorem C3_witness :
    (((teCell lsW stW 0).1.cells.getD 0 dCell).bits ⊆ (stW.cells.getD 0 dCell).bits) ∧
    (solveLoop lroW (fun _ _ _ => false) gW true true 1 (Nat.succ 0)
        { stW with jobs := [(0, 0)] } =
      solveLoop lroW (fun _ _ _ => false) gW true true 1 0
        (try_everything (fun _ _ _ => false) { stW with jobs := [], nlines := 1 }).1) :=
  ⟨(C3_try_everything.1 lsW stW 0 (by decide) (by decide)).1,
   C3_try_everything.2.2 lroW (fun _ _ _ => false) gW true 1 0
     { stW with jobs := [(0, 0)] } { stW with jobs := [], nlines := 1 }
     (by decide) (by decide) (by decide) (by decide)⟩

/-! ### C8 — backtracking disabled -/

/-- The three user-visible terminal states of `solve`. -/
inductive Outcome
  | solvedO
  | stuck
  | unsatO
deriving DecidableEq

/-- How a caller reads `solve`'s result: return 0 is unsat; return 1 with
every cell solved is solved; return 1 with cells left is stuck. -/
def outcomeOf (r : PState × ℕ) : Outcome :=
  if r.2 = 0 then Outcome.unsatO
  else if r.1.nsolved = r.1.ncells then Outcome.solvedO
  else Outcome.stuck

/-- C8: with backtracking disabled, when propagation goes quiescent while
unsolved cells remain (and the exhaustive check, if it runs at all, finds
nothing), `solve`'s loop returns 1 with the propagation-final state
unchanged — no guess is made (`guesses` still equals what propagation left)
and no cell is further mutated — and that result reads as the stuck
outcome, distinct from solved and from unsat. -/
theorem C8_no_backtrack_stuck (lro : ℕ → ℕ → List Cell → Option (List (ℕ × Finset ℕ)))
    (ls : List Cell → ℕ → ℕ → Bool) (guessF : PState → Option PState)
    (tryharder : Bool) (lfuel f : ℕ) (st st1 : PState)
    (hq : logic_solve lro lfuel st = some (st1, 1))
    (hns : st1.nsolved ≠ st1.ncells)
    (hte : tryharder = true → st1.history = [] → (try_everything ls st1).2 = 0) :
    solveLoop lro ls guessF tryharder false lfuel (Nat.succ f) st = some (st1, 1) ∧
    st1.guesses = st.guesses ∧
    outcomeOf (st1, 1) = Outcome.stuck ∧
    Outcome.stuck ≠ Outcome.solvedO ∧ Outcome.stuck ≠ Outcome.unsatO := by
  refine ⟨?_, (logic_solve_counters lro lfuel st (st1, 1) hq).1, ?_, by decide, by decide⟩
  · simp only [solveLoop, hq, if_true, true_and]
    rw [if_neg hns]
    by_cases hcond : tryharder = true ∧ st1.history = []
    · have hz := hte hcond.1 hcond.2
      have hco : (if tryharder = true ∧ st1.history = [] then try_everything ls st1
          else (st1, 0)) = try_everything ls st1 := if_pos hcond
      rw [hco]
      rw [if_neg (fun hx => by omega)]
      rw [try_everything_zero ls st1 hz]
    · have hco : (if tryharder = true ∧ st1.history = [] then try_everything ls st1
          else (st1, 0)) = (st1, 0) := if_neg hcond
      rw [hco]
      rw [if_neg (fun hx => by omega)]
  · unfold outcomeOf
    rw [if_neg (by omega : ¬ ((st1, 1) : PState × ℕ).2 = 0)]
    rw [if_neg hns]

/-- Witness for C8 at a concrete input: one job, a line solver that tightens
nothing, backtracking disabled; the loop returns the quiescent state with
verdict 1, read as stuck. -/
theorem C8_witness :
    solveLoop lroW lsW gW true false 1 (Nat.succ 0) { stW with jobs := [(0, 0)] } =
      some ({ stW with jobs := [], nlines := 1 }, 1) ∧
    ({ stW with jobs := [], nlines := 1 } : PState).guesses =
      ({ stW with jobs := [(0, 0)] } : PState).guesses ∧
    outcomeOf (({ stW with jobs := [], nlines := 1 } : PState), 1) = Outcome.stuck ∧
    Outcome.stuck ≠ Outcome.solvedO ∧ Outcome.stuck ≠ Outcome.unsatO :=
  C8_no_backtrack_stuck lroW lsW gW true 1 0 { stW with jobs := [(0, 0)] }
    { stW with jobs := [], nlines := 1 } (by decide) (by decide)
    (fun _ _ => by decide)

/-! ### C2 — a probe hitting a contradiction -/

/-- The state `probe_cell` hands to the trunk `logic_solve` when probing
colour `c`: probe counted, sibling guess opened when merging, and the trial
assignment made with `guess_cell` (probe.c lines 94-99). -/
def probePrep (merging : Bool) (st : PState) (idx c : ℕ) : PState :=
  let st1 := { st with probes := st.probes + 1 }
  let st2 := if merging then { st1 with mergeSt := merge_guess st1.mergeSt } else st1
  guess_cell st2 idx c

/-- The state on which `probe_cell` backtracks after the trial propagation
reported a contradiction: the propagated state with the sibling's merge
contribution cancelled (when merging) and the inverted guess counted
(probe.c lines 129-133). -/
def probeContraState (trial : ℕ → PState → PState × LV) (merging : Bool)
    (st : PState) (idx c : ℕ) : PState :=
  let st3 := probePrep merging st idx c
  let t := trial c st3
  let st4 := padOr st3.cells (withGrid st3 t.1)
  let st5 := if merging then { st4 with mergeSt := merge_cancel st4.mergeSt } else st4
  { st5 with guesses := st5.guesses + 1 }

/-- The job list after enqueueing line `(d, i)` (`add_job`). -/
def jobsAdd (J : List (ℕ × ℕ)) (d i : ℕ) : List (ℕ × ℕ) :=
  if (d, i) ∈ J then J else J ++ [(d, i)]

theorem add_job_jobs (st : PState) (d i : ℕ) : (add_job st d i).jobs = jobsAdd st.jobs d i := by
  unfold add_job jobsAdd
  split <;> rfl

theorem add_jobs_jobs (st : PState) (idx : ℕ) :
    (add_jobs st idx).jobs = jobsAdd (jobsAdd st.jobs 0 (idx / st.ncols)) 1 (idx % st.ncols) := by
  unfold add_jobs
  rw [add_job_jobs, add_job_jobs]

/-- Modelled backtrack on a history consisting of non-branch frames (none of
them touching the probed cell) above the probe's branch frame: it restores
the upper frames, then inverts the branch — the probed cell, currently set
to `{c}` alone, is re-mutated to its prior possibility set with `c` removed
— pops the branch, and enqueues the cell's crossing lines. -/
theorem backtrack_unwind (pre : List Hist) :
    ∀ (st : PState) (idx c oldN : ℕ) (oldBits : Finset ℕ) (rest : List Hist),
    (∀ h ∈ pre, h.branch = false ∧ h.cellIdx ≠ idx) →
    st.cells.getD idx dCell = Cell.mk {c} 1 →
    idx < st.cells.length →
    oldBits \ {c} ≠ ∅ →
    ∃ st7, backtrackList (pre ++ Hist.mk true idx oldN oldBits :: rest) st = some st7 ∧
      st7.cells.getD idx dCell = Cell.mk (oldBits \ {c}) (oldBits \ {c}).card ∧
      st7.history = rest ∧
      st7.jobs = jobsAdd (jobsAdd st.jobs 0 (idx / st.ncols)) 1 (idx % st.ncols) := by
  induction pre with
  | nil =>
    intro st idx c oldN oldBits rest _ hcell hidx hne
    simp only [List.nil_append, backtrackList]
    rw [if_pos trivial]
    rw [hcell]
    have hbits : (Cell.mk {c} 1).bits = ({c} : Finset ℕ) := rfl
    have hn1 : (Cell.mk {c} 1).n = 1 := rfl
    rw [hbits, hn1]
    rw [if_neg hne]
    refine ⟨_, rfl, ?_, ?_, ?_⟩
    · show ((add_jobs { st with
        history := rest,
        cells := st.cells.set idx (Cell.mk (oldBits \ {c}) (oldBits \ {c}).card),
        nsolved := st.nsolved + (if (oldBits \ {c}).card = 1 then 1 else 0) - 1 } idx).cells).getD idx dCell
        = Cell.mk (oldBits \ {c}) (oldBits \ {c}).card
      rw [(add_jobs_core _ _).1]
      exact getD_set_self st.cells idx _ hidx
    · show (add_jobs { st with
        history := rest,
        cells := st.cells.set idx (Cell.mk (oldBits \ {c}) (oldBits \ {c}).card),
        nsolved := st.nsolved + (if (oldBits \ {c}).card = 1 then 1 else 0) - 1 } idx).history = rest
      rw [(add_jobs_core _ _).2.2]
    · rw [add_jobs_jobs]
  | cons h pre ih =>
    intro st idx c oldN oldBits rest hpre hcell hidx hne
    have hh := hpre h (List.mem_cons_self h pre)
    simp only [List.cons_append, backtrackList]
    rw [if_neg (by rw [hh.1]; exact Bool.false_ne_true)]
    have hcell2 : (restoreTop { st with history := pre ++ Hist.mk true idx oldN oldBits :: rest } h).cells.getD idx dCell
        = Cell.mk {c} 1 := by
      show (st.cells.set h.cellIdx (Cell.mk h.oldBits h.oldN)).getD idx dCell = Cell.mk {c} 1
      rw [getD_set_ne st.cells h.cellIdx idx _ hh.2]
      exact hcell
    have hidx2 : idx < (restoreTop { st with history := pre ++ Hist.mk true idx oldN oldBits :: rest } h).cells.length := by
      show idx < (st.cells.set h.cellIdx (Cell.mk h.oldBits h.oldN)).length
      rw [List.length_set]
      exact hidx
    obtain ⟨st7, hbt, hc7, hh7, hj7⟩ := ih
      (restoreTop { st with history := pre ++ Hist.mk true idx oldN oldBits :: rest } h)
      idx c oldN oldBits rest (fun g hg => hpre g (List.mem_cons_of_mem h hg))
      hcell2 hidx2 hne
    exact ⟨st7, hbt, hc7, hh7, hj7⟩

/-- C2: when the trial propagation of colour `c` on a probed cell returns a
contradiction, `probe_cell`'s colour loop cancels the sibling's merge
contribution and counts a guess (both recorded in `probeContraState`),
backtracks that state, clears the probing flag and returns the forced-fact
code -1 — or aborts the run when backtracking finds nothing to unwind; and
backtracking a state whose history holds the probe's branch frame under
non-branch consequences inverts the guess: the probed cell becomes its prior
possibility set with `c` removed, the frame is popped, and the cell's
crossing lines are enqueued. -/
theorem C2_probe_contradiction :
    (∀ (trial : ℕ → PState → PState × LV) (merging : Bool) (idx c : ℕ) (cs : List ℕ)
      (st : PState) (bnl bc fb : ℕ),
      c ∈ (st.cells.getD idx dCell).bits →
      c ∉ st.probepad.getD idx ∅ →
      (trial c (probePrep merging st idx c)).2 = LV.contra →
      (backtrack (probeContraState trial merging st idx c) = none →
        probeCellLoop trial merging idx (c :: cs) st bnl bc fb = LoopRes.abortL) ∧
      (∀ st7, backtrack (probeContraState trial merging st idx c) = some st7 →
        probeCellLoop trial merging idx (c :: cs) st bnl bc fb =
          LoopRes.early { st7 with probing := false } bnl bc (-1))) ∧
    (∀ (pre : List Hist) (st : PState) (idx c oldN : ℕ) (oldBits : Finset ℕ)
      (rest : List Hist),
      (∀ h ∈ pre, h.branch = false ∧ h.cellIdx ≠ idx) →
      st.history = pre ++ Hist.mk true idx oldN oldBits :: rest →
      st.cells.getD idx dCell = Cell.mk {c} 1 →
      idx < st.cells.length →
      oldBits \ {c} ≠ ∅ →
      ∃ st7, backtrack st = some st7 ∧
        st7.cells.getD idx dCell = Cell.mk (oldBits \ {c}) (oldBits \ {c}).card ∧
        st7.history = rest ∧
        st7.jobs = jobsAdd (jobsAdd [] 0 (idx / st.ncols)) 1 (idx % st.ncols)) := by
  constructor
  · intro trial merging idx c cs st bnl bc fb hmay hpad htr
    constructor
    · intro hbt
      simp only [probeCellLoop]
      rw [if_pos hmay, if_neg hpad]
      simp only [probePrep] at htr
      rw [htr]
      simp only [probeContraState, probePrep] at hbt
      rw [hbt]
    · intro st7 hbt
      simp only [probeCellLoop]
      rw [if_pos hmay, if_neg hpad]
      simp only [probePrep] at htr
      rw [htr]
      simp only [probeContraState, probePrep] at hbt
      rw [hbt]
  · intro pre st idx c oldN oldBits rest hpre hhist hcell hidx hne
    have := backtrack_unwind pre (flush_jobs st) idx c oldN oldBits rest hpre hcell hidx hne
    unfold backtrack
    rw [hhist]
    simpa using this

/-- A trial oracle that always reports a contradiction. -/
def trialC : ℕ → PState → PState × LV := fun _ s => (s, LV.contra)

/-- The state `probe_cell` reaches after probing colour 0 on cell 0 of `stW`
against `trialC` and backtracking: the guess inverted to colour 1. -/
def stC2 : PState := { stW with
  cells := [{ bits := {1}, n := 1 }, { bits := {0, 1}, n := 2 }],
  nsolved := 1,
  jobs := [(0, 0), (1, 0)],
  probes := 1,
  guesses := 1 }

/-- A state mid-probe: one non-branch consequence (cell 1) above the probe's
branch frame (cell 0, set to colour 0 from `{0, 1}`). -/
def stC2pre : PState := { stW with
  cells := [{ bits := {0}, n := 1 }, { bits := {0}, n := 1 }],
  nsolved := 2,
  history := [{ branch := false, cellIdx := 1, oldN := 2, oldBits := {0, 1} },
    { branch := true, cellIdx := 0, oldN := 2, oldBits := {0, 1} }] }

/-- Witness for C2 at concrete inputs: the contradiction branch taken on
`stW` with an always-contradicting propagation, and the unwinding of a
two-frame probe history. -/
theorem C2_witness :
    (probeCellLoop trialC false 0 (0 :: [1]) stW 10 0 0 =
      LoopRes.early { stC2 with probing := false } 10 0 (-1)) ∧
    (∃ st7, backtrack stC2pre = some st7 ∧
      st7.cells.getD 0 dCell =
        Cell.mk (({0, 1} : Finset ℕ) \ {0}) ((({0, 1} : Finset ℕ) \ {0}).card) ∧
      st7.history = [] ∧
      st7.jobs = jobsAdd (jobsAdd [] 0 (0 / stC2pre.ncols)) 1 (0 % stC2pre.ncols)) :=
  ⟨(C2_probe_contradiction.1 trialC false 0 0 [1] stW 10 0 0 (by decide) (by decide)
      (by decide)).2 stC2 (by decide),
   C2_probe_contradiction.2 [{ branch := false, cellIdx := 1, oldN := 2, oldBits := {0, 1} }]
     stC2pre 0 0 2 {0, 1} [] (by decide) (by decide) (by decide) (by decide) (by decide)⟩

/-! ### C4 — selection of the best probe -/

theorem restoreTop_aux (st : PState) (h : Hist) :
    (restoreTop st h).plog = st.plog ∧ (restoreTop st h).ncells = st.ncells ∧
    (restoreTop st h).ncols = st.ncols ∧ ctrs (restoreTop st h) = ctrs st :=
  ⟨rfl, rfl, rfl, rfl⟩

theorem undoList_aux (l : List Hist) (st : PState) :
    (undoList l st).plog = st.plog ∧ (undoList l st).ncells = st.ncells ∧
    (undoList l st).ncols = st.ncols ∧ ctrs (undoList l st) = ctrs st := by
  induction l generalizing st with
  | nil => exact ⟨rfl, rfl, rfl, rfl⟩
  | cons h rest ih =>
    simp only [undoList]
    by_cases hb : h.branch = true
    · rw [if_pos hb]
      exact ⟨rfl, rfl, rfl, rfl⟩
    · rw [if_neg hb]
      exact ⟨(ih _).1, (ih _).2.1, (ih _).2.2.1, (ih _).2.2.2⟩

theorem add_hist_aux (st : PState) (idx : ℕ) (b : Bool) :
    (add_hist st idx b).plog = st.plog ∧ (add_hist st idx b).ncells = st.ncells ∧
    (add_hist st idx b).ncols = st.ncols ∧ (add_hist st idx b).nrows = st.nrows := by
  unfold add_hist; split <;> exact ⟨rfl, rfl, rfl, rfl⟩

theorem add_jobs_aux (st : PState) (idx : ℕ) :
    (add_jobs st idx).plog = st.plog ∧ (add_jobs st idx).ncells = st.ncells ∧
    (add_jobs st idx).ncols = st.ncols ∧ (add_jobs st idx).nrows = st.nrows := by
  unfold add_jobs add_job; split <;> split <;> exact ⟨rfl, rfl, rfl, rfl⟩

theorem guess_cell_aux (st : PState) (idx c : ℕ) :
    (guess_cell st idx c).plog = st.plog ∧ (guess_cell st idx c).ncells = st.ncells ∧
    (guess_cell st idx c).ncols = st.ncols ∧ (guess_cell st idx c).nrows = st.nrows := by
  unfold guess_cell
  refine ⟨?_, ?_, ?_, ?_⟩
  · rw [(add_jobs_aux _ _).1]
    show (add_hist st idx true).plog = st.plog
    rw [(add_hist_aux _ _ _).1]
  · rw [(add_jobs_aux _ _).2.1]
    show (add_hist st idx true).ncells = st.ncells
    rw [(add_hist_aux _ _ _).2.1]
  · rw [(add_jobs_aux _ _).2.2.1]
    show (add_hist st idx true).ncols = st.ncols
    rw [(add_hist_aux _ _ _).2.2.1]
  · rw [(add_jobs_aux _ _).2.2.2]
    show (add_hist st idx true).nrows = st.nrows
    rw [(add_hist_aux _ _ _).2.2.2]

/-- The `if (nleft < *bestnleft)` update as a pure fold over the
`(colour, nleft)` pairs of one cell's completed probes. -/
def selFold : List (ℕ × ℕ) → ℕ × ℕ → ℕ × ℕ
  | [], b => b
  | t :: ts, b => selFold ts (if t.2 < b.1 then (t.2, t.1) else b)

/-- With merging off and a trial oracle that always reports quiescence, the
colour loop of `probe_cell` never returns early: it ends with `fin`, its
best-so-far pair is the `selFold` of the `(colour, nleft)` pairs it logged,
the log grows by exactly those entries (placed at the probed cell's
coordinates), every logged `nleft` is at most `ncells`, the static shape is
unchanged, and `foundbetter` counts improvements: it stays put exactly when
the best did not change, and moves only when the best strictly dropped. -/
theorem probeCellLoop_quiesc (trial : ℕ → PState → PState × LV)
    (Htr : ∀ c s, (trial c s).2 = LV.quiesc) (idx : ℕ) :
    ∀ (cs : List ℕ) (st : PState) (bnl bc fb : ℕ),
    ∃ (st2 : PState) (T : List (ℕ × ℕ)) (fb2 : ℕ),
      probeCellLoop trial false idx cs st bnl bc fb =
        LoopRes.fin st2 (selFold T (bnl, bc)).1 (selFold T (bnl, bc)).2 fb2 ∧
      st2.plog = st.plog ++
        T.map (fun p => Sel.mk (idx / st.ncols) (idx % st.ncols) p.1 p.2) ∧
      st2.ncells = st.ncells ∧ st2.ncols = st.ncols ∧ st2.nrows = st.nrows ∧
      (∀ p ∈ T, p.2 ≤ st.ncells) ∧
      fb ≤ fb2 ∧
      (fb2 = fb → selFold T (bnl, bc) = (bnl, bc)) ∧
      (selFold T (bnl, bc)).1 ≤ bnl ∧
      (fb2 ≠ fb → (selFold T (bnl, bc)).1 < bnl) := by
  intro cs
  induction cs with
  | nil =>
    intro st bnl bc fb
    exact ⟨st, [], fb, rfl, by simp, rfl, rfl, rfl, by simp, le_refl _,
      fun _ => rfl, le_refl _, fun hx => absurd rfl hx⟩
  | cons c cs ih =>
    intro st bnl bc fb
    by_cases hmay : c ∈ (st.cells.getD idx dCell).bits
    · by_cases hpad : c ∈ st.probepad.getD idx ∅
      · obtain ⟨st2, T, fb2, heq, hplog, hncl, hnco, hnro, hbound, hfb, hfb0, hle, hfbs⟩ :=
          ih st bnl bc fb
        refine ⟨st2, T, fb2, ?_, hplog, hncl, hnco, hnro, hbound, hfb, hfb0, hle, hfbs⟩
        simp only [probeCellLoop]
        rw [if_pos hmay, if_pos hpad]
        exact heq
      · -- the probe happens and is quiescent
        simp only [probeCellLoop]
        rw [if_pos hmay, if_neg hpad]
        rw [if_neg Bool.false_ne_true]
        rw [Htr c (guess_cell { st with probes := st.probes + 1 } idx c)]
        set st3 := guess_cell { st with probes := st.probes + 1 } idx c with hst3
        set st4 := padOr st3.cells
          (withGrid st3 (trial c st3).1) with hst4
        have hplog4 : st4.plog = st.plog := by
          rw [hst4]
          show (withGrid st3 (trial c st3).1).plog = st.plog
          show st3.plog = st.plog
          rw [hst3, (guess_cell_aux _ _ _).1]
        have hst4cells : st4.ncells = st.ncells := by
          rw [hst4]
          show (withGrid st3 (trial c st3).1).ncells = st.ncells
          show st3.ncells = st.ncells
          rw [hst3, (guess_cell_aux _ _ _).2.1]
        have hst4cols : st4.ncols = st.ncols := by
          rw [hst4]
          show (withGrid st3 (trial c st3).1).ncols = st.ncols
          show st3.ncols = st.ncols
          rw [hst3, (guess_cell_aux _ _ _).2.2.1]
        set nleft := st4.ncells - st4.nsolved with hnleft
        set st5 := { st4 with
          plog := st4.plog ++ [Sel.mk (idx / st4.ncols) (idx % st4.ncols) c nleft] }
          with hst5
        have h6 := undoList_aux st5.history st5
        have hplog6 : (undo st5).plog =
            st.plog ++ [Sel.mk (idx / st.ncols) (idx % st.ncols) c nleft] := by
          show (undoList st5.history st5).plog = _
          rw [h6.1, hst5]
          show st4.plog ++ [Sel.mk (idx / st4.ncols) (idx % st4.ncols) c nleft] = _
          rw [hplog4, hst4cols]
        have hncl6 : (undo st5).ncells = st.ncells := by
          show (undoList st5.history st5).ncells = _
          rw [h6.2.1, hst5]
          show st4.ncells = st.ncells
          exact hst4cells
        have hnco6 : (undo st5).ncols = st.ncols := by
          show (undoList st5.history st5).ncols = _
          rw [h6.2.2.1, hst5]
          show st4.ncols = st.ncols
          exact hst4cols
        have hnro6 : (undo st5).nrows = st.nrows := by
          have hu : ∀ (l : List Hist) (s : PState), (undoList l s).nrows = s.nrows := by
            intro l
            induction l with
            | nil => intro s; rfl
            | cons h rest ihl =>
              intro s
              simp only [undoList]
              by_cases hb : h.branch = true
              · rw [if_pos hb]; rfl
              · rw [if_neg hb]; exact ihl _
          show (undoList st5.history st5).nrows = st.nrows
          rw [hu]
          show st3.nrows = st.nrows
          rw [hst3, (guess_cell_aux _ _ _).2.2.2]
        have hnlb : nleft ≤ st.ncells := by
          rw [hnleft, hst4cells]
          omega
        by_cases himp : nleft < bnl
        · rw [if_pos himp]
          obtain ⟨st2, T, fb2, heq, hplog, hncl, hnco, hnro, hbound, hfb, hfb0, hle, hfbs⟩ :=
            ih (undo st5) nleft c (fb + 1)
          refine ⟨st2, (c, nleft) :: T, fb2, ?_, ?_, ?_, ?_, ?_, ?_, ?_, ?_, ?_, ?_⟩
          · rw [heq]
            simp only [selFold]
            rw [if_pos himp]
          · rw [hplog, hplog6]
            simp only [List.map_cons, List.append_assoc, List.cons_append, List.nil_append]
            rw [hnco6]
          · rw [hncl, hncl6]
          · rw [hnco, hnco6]
          · rw [hnro, hnro6]
          · intro p hp
            rcases List.mem_cons.mp hp with hp0 | hps
            · rw [hp0]
              exact hnlb
            · have := hbound p hps
              rw [hncl6] at this
              exact this
          · omega
          · intro hfe
            omega
          · simp only [selFold]
            rw [if_pos himp]
            omega
          · intro _
            simp only [selFold]
            rw [if_pos himp]
            omega
        · rw [if_neg himp]
          obtain ⟨st2, T, fb2, heq, hplog, hncl, hnco, hnro, hbound, hfb, hfb0, hle, hfbs⟩ :=
            ih (undo st5) bnl bc fb
          refine ⟨st2, (c, nleft) :: T, fb2, ?_, ?_, ?_, ?_, ?_, ?_, hfb, ?_, ?_, ?_⟩
          · rw [heq]
            simp only [selFold]
            rw [if_neg himp]
          · rw [hplog, hplog6]
            simp only [List.map_cons, List.append_assoc, List.cons_append, List.nil_append]
            rw [hnco6]
          · rw [hncl, hncl6]
          · rw [hnco, hnco6]
          · rw [hnro, hnro6]
          · intro p hp
            rcases List.mem_cons.mp hp with hp0 | hps
            · rw [hp0]
              exact hnlb
            · have := hbound p hps
              rw [hncl6] at this
              exact this
          · intro hfe
            simp only [selFold]
            rw [if_neg himp]
            exact hfb0 hfe
          · simp only [selFold]
            rw [if_neg himp]
            exact hle
          · intro hfe
            simp only [selFold]
            rw [if_neg himp]
            exact hfbs hfe
    · obtain ⟨st2, T, fb2, heq, hplog, hncl, hnco, hnro, hbound, hfb, hfb0, hle, hfbs⟩ :=
        ih st bnl bc fb
      refine ⟨st2, T, fb2, ?_, hplog, hncl, hnco, hnro, hbound, hfb, hfb0, hle, hfbs⟩
      simp only [probeCellLoop]
      rw [if_neg hmay]
      exact heq

/-- The per-cell `selFold` of `(colour, nleft)` pairs agrees with folding
`selStep` over the corresponding log entries at the cell's coordinates: the
running `(bestnleft, bestc)` are the fold's `nl`/`c` fields, and the fold
moves `besti`, `bestj` to the cell exactly when the best strictly improved. -/
theorem selFold_foldl (i j : ℕ) : ∀ (T : List (ℕ × ℕ)) (b : Sel),
    (selFold T (b.nl, b.c)).1 =
      (List.foldl selStep b (T.map (fun p => Sel.mk i j p.1 p.2))).nl ∧
    (selFold T (b.nl, b.c)).2 =
      (List.foldl selStep b (T.map (fun p => Sel.mk i j p.1 p.2))).c ∧
    (List.foldl selStep b (T.map (fun p => Sel.mk i j p.1 p.2))).nl ≤ b.nl ∧
    ((List.foldl selStep b (T.map (fun p => Sel.mk i j p.1 p.2))).nl < b.nl →
      (List.foldl selStep b (T.map (fun p => Sel.mk i j p.1 p.2))).i = i ∧
      (List.foldl selStep b (T.map (fun p => Sel.mk i j p.1 p.2))).j = j) ∧
    (¬ (List.foldl selStep b (T.map (fun p => Sel.mk i j p.1 p.2))).nl < b.nl →
      List.foldl selStep b (T.map (fun p => Sel.mk i j p.1 p.2)) = b) := by
  intro T
  induction T with
  | nil =>
    intro b
    exact ⟨rfl, rfl, le_refl _, fun h => absurd h (lt_irrefl _), fun _ => rfl⟩
  | cons t T ih =>
    intro b
    simp only [List.map_cons, List.foldl_cons, selFold]
    by_cases h : t.2 < b.nl
    · have hstep : selStep b (Sel.mk i j t.1 t.2) = Sel.mk i j t.1 t.2 := by
        unfold selStep
        rw [if_pos h]
      rw [hstep, if_pos h]
      have hi := ih (Sel.mk i j t.1 t.2)
      refine ⟨hi.1, hi.2.1, le_trans hi.2.2.1 (le_of_lt h), fun _ => ?_, fun hn => ?_⟩
      · by_cases hlt : (List.foldl selStep (Sel.mk i j t.1 t.2)
            (T.map (fun p => Sel.mk i j p.1 p.2))).nl < t.2
        · exact hi.2.2.2.1 hlt
        · rw [hi.2.2.2.2 hlt]
          exact ⟨rfl, rfl⟩
      · exact absurd (lt_of_le_of_lt hi.2.2.1 h) hn
    · have hstep : selStep b (Sel.mk i j t.1 t.2) = b := by
        unfold selStep
        rw [if_neg h]
      rw [hstep, if_neg h]
      exact ih b

/-- Auxiliary for `scanPairs_mem`: folding rows over any index list only
produces pairs whose second component lies below `nc`. -/
theorem scanPairsAux_mem (nc : ℕ) : ∀ (I : List ℕ) (p : ℕ × ℕ),
    p ∈ I.foldr (fun i acc => ((List.range nc).map (fun j => (i, j))) ++ acc) [] →
    p.2 < nc := by
  intro I
  induction I with
  | nil =>
    intro p hp
    simp at hp
  | cons i I ih =>
    intro p hp
    simp only [List.foldr_cons] at hp
    rcases List.mem_append.mp hp with hm | hm
    · obtain ⟨j, hj, hje⟩ := List.mem_map.mp hm
      rw [← hje]
      exact List.mem_range.mp hj
    · exact ih p hm

/-- Every element of the row-major scan has its column inside the grid. -/
theorem scanPairs_mem (nr nc : ℕ) (p : ℕ × ℕ) (hp : p ∈ scanPairs nr nc) : p.2 < nc :=
  scanPairsAux_mem nc (List.range nr) p hp

/-- With merging off and every trial quiescent, a `probeCells` scan ends in
`finP`, its final best is `selStep` folded over exactly the log entries it
appended, and every logged `nleft` is bounded by `ncells`. -/
theorem probeCells_quiesc (trial : ℕ → PState → PState × LV)
    (Htr : ∀ c s, (trial c s).2 = LV.quiesc) :
    ∀ (L : List (ℕ × ℕ)) (st : PState) (sel : Sel),
    (∀ p ∈ L, p.2 < st.ncols) →
    ∃ (st2 : PState) (T : List Sel),
      probeCells trial false true L st sel = PassRes.finP st2 (List.foldl selStep sel T) ∧
      st2.plog = st.plog ++ T ∧
      st2.ncells = st.ncells ∧ st2.ncols = st.ncols ∧ st2.nrows = st.nrows ∧
      (∀ e ∈ T, e.nl ≤ st.ncells) := by
  intro L
  induction L with
  | nil =>
    intro st sel _
    exact ⟨st, [], rfl, by simp, rfl, rfl, rfl, by simp⟩
  | cons p L ih =>
    intro st sel hcols
    obtain ⟨i, j⟩ := p
    have hj : j < st.ncols := hcols (i, j) (List.mem_cons_self _ _)
    have hcolpos : 0 < st.ncols := lt_of_le_of_lt (Nat.zero_le j) hj
    have hdiv : (i * st.ncols + j) / st.ncols = i := by
      rw [Nat.add_comm]
      rw [Nat.add_mul_div_right j i hcolpos]
      rw [Nat.div_eq_of_lt hj]
      exact Nat.zero_add i
    have hmod : (i * st.ncols + j) % st.ncols = j := by
      rw [Nat.add_comm]
      rw [Nat.add_mul_mod_self_right]
      exact Nat.mod_eq_of_lt hj
    simp only [probeCells]
    by_cases hskip : (cellAt st i j).n < 2
    · rw [if_pos hskip]
      exact ih st sel (fun q hq => hcols q (List.mem_cons_of_mem _ hq))
    · rw [if_neg hskip]
      by_cases hneigh : count_neighbors st i j < 2
      · rw [if_pos ⟨trivial, hneigh⟩]
        exact ih st sel (fun q hq => hcols q (List.mem_cons_of_mem _ hq))
      · rw [if_neg (fun hx => hneigh hx.2)]
        obtain ⟨stq, Tq, fbq, heq, hplog, hncl, hnco, hnro, hbound, hfb, hfb0, hle, hfbs⟩ :=
          probeCellLoop_quiesc trial Htr (i * st.ncols + j) (List.range st.ncolor)
            st sel.nl sel.c 0
        have hpc : probe_cell trial false (i * st.ncols + j) st sel.nl sel.c =
            PCRes.done stq (selFold Tq (sel.nl, sel.c)).1 (selFold Tq (sel.nl, sel.c)).2
              (fbq : ℤ) := by
          simp only [probe_cell]
          rw [heq]
          rfl
        simp only [hpc]
        rw [if_neg (not_lt.mpr (Int.natCast_nonneg fbq))]
        rw [hdiv, hmod] at hplog
        have hff := selFold_foldl i j Tq sel
        set A := Tq.map (fun p => Sel.mk i j p.1 p.2) with hA
        set F := List.foldl selStep sel A with hF
        have hsel2 : (if 0 < (fbq : ℤ) then
            Sel.mk i j (selFold Tq (sel.nl, sel.c)).2 (selFold Tq (sel.nl, sel.c)).1
            else Sel.mk sel.i sel.j (selFold Tq (sel.nl, sel.c)).2
              (selFold Tq (sel.nl, sel.c)).1) = F := by
          by_cases hpos : 0 < fbq
          · rw [if_pos (by exact_mod_cast hpos)]
            have hne : fbq ≠ 0 := by omega
            have hlt : (selFold Tq (sel.nl, sel.c)).1 < sel.nl := hfbs hne
            have hlt2 : F.nl < sel.nl := by rw [← hff.1]; exact hlt
            have hij := hff.2.2.2.1 hlt2
            rw [hff.1, hff.2.1, ← hij.1, ← hij.2]
          · rw [if_neg (by exact_mod_cast hpos)]
            have hz : fbq = 0 := by omega
            have hsf := hfb0 hz
            have hnl : (selFold Tq (sel.nl, sel.c)).1 = sel.nl := by rw [hsf]
            have hnc2 : (selFold Tq (sel.nl, sel.c)).2 = sel.c := by rw [hsf]
            have hnotlt : ¬ F.nl < sel.nl := by
              rw [← hff.1, hnl]
              exact lt_irrefl _
            have hFb := hff.2.2.2.2 hnotlt
            rw [hFb, hnl, hnc2]
        rw [hsel2]
        obtain ⟨st2, T2, heq2, hplog2, hncl2, hnco2, hnro2, hbound2⟩ :=
          ih stq F (by
            intro q hq
            rw [hnco]
            exact hcols q (List.mem_cons_of_mem _ hq))
        refine ⟨st2, A ++ T2, ?_, ?_, ?_, ?_, ?_, ?_⟩
        · rw [heq2, List.foldl_append]
        · rw [hplog2, hplog, List.append_assoc]
        · rw [hncl2, hncl]
        · rw [hnco2, hnco]
        · rw [hnro2, hnro]
        · intro e he
          rcases List.mem_append.mp he with hm | hm
          · rw [hA] at hm
            obtain ⟨q, hq, hqe⟩ := List.mem_map.mp hm
            rw [← hqe]
            exact hbound q hq
          · have := hbound2 e hm
            rw [hncl] at this
            exact this

/-- Folding `selStep` keeps the minimum: the result is at most every entry
(and the start), and it is either the start or an entry that strictly beats
the start and every entry before it. -/
theorem foldl_selStep_spec : ∀ (T : List Sel) (b : Sel),
    (∀ t ∈ T, (List.foldl selStep b T).nl ≤ t.nl) ∧
    (List.foldl selStep b T).nl ≤ b.nl ∧
    (List.foldl selStep b T = b ∨
      ∃ k, ∃ hk : k < T.length, T.get ⟨k, hk⟩ = List.foldl selStep b T ∧
        (List.foldl selStep b T).nl < b.nl ∧
        ∀ k2 (hk2 : k2 < k),
          (List.foldl selStep b T).nl < (T.get ⟨k2, lt_trans hk2 hk⟩).nl) := by
  intro T
  induction T with
  | nil =>
    intro b
    exact ⟨by simp, le_refl _, Or.inl rfl⟩
  | cons t T ih =>
    intro b
    simp only [List.foldl_cons]
    have hbnl : (selStep b t).nl ≤ b.nl ∧ (selStep b t).nl ≤ t.nl := by
      unfold selStep
      by_cases h : t.nl < b.nl
      · rw [if_pos h]
        exact ⟨le_of_lt h, le_refl _⟩
      · rw [if_neg h]
        exact ⟨le_refl _, not_lt.mp h⟩
    obtain ⟨ih1, ih2, ih3⟩ := ih (selStep b t)
    refine ⟨?_, le_trans ih2 hbnl.1, ?_⟩
    · intro s hs
      rcases List.mem_cons.mp hs with hs0 | hs1
      · rw [hs0]
        exact le_trans ih2 hbnl.2
      · exact ih1 s hs1
    · rcases ih3 with hfix | ⟨k, hk, hget, hlt, hbefore⟩
      · rw [hfix]
        unfold selStep
        by_cases h : t.nl < b.nl
        · rw [if_pos h]
          refine Or.inr ⟨0, by simp, ?_, ?_, ?_⟩
          · simp [List.get]
          · exact h
          · intro k2 hk2
            cases hk2
        · rw [if_neg h]
          exact Or.inl rfl
      · refine Or.inr ⟨k + 1, by simpa using hk, ?_, lt_of_lt_of_le hlt hbnl.1, ?_⟩
        · simpa using hget
        · intro k2 hk2
          cases k2 with
          | zero =>
            simp only [List.get]
            exact lt_of_lt_of_le (lt_of_lt_of_le hlt hbnl.2) (le_refl _)
          | succ m =>
            have hm : m < k := by omega
            have := hbefore m hm
            simpa using this

/-- C4: when every probe trial comes back quiescent (no contradiction, no
merge elimination with merging off, no accidental solution), `probe` either
aborts with the internal no-candidate error — exactly when no probe was
completed at all (empty probe log) — or returns `guessAt` for a completed
probe whose remaining-cell count is minimal over all completed probes and
strictly smaller than every earlier one's, so the earliest-probed candidate
wins ties. -/
theorem C4_probe_best_guess (trial : ℕ → PState → PState × LV)
    (Htr : ∀ c s, (trial c s).2 = LV.quiesc)
    (st : PState) (bi0 bj0 bc0 : ℕ)
    (hlog : st.plog = []) (hcap : st.ncells < INT_MAX) :
    ((probe trial false 1 st bi0 bj0 bc0).1.plog = [] →
      (probe trial false 1 st bi0 bj0 bc0).2 = ProbeRes.errorNoCand) ∧
    ((probe trial false 1 st bi0 bj0 bc0).1.plog ≠ [] →
      ∃ (k : ℕ) (e : Sel),
        (probe trial false 1 st bi0 bj0 bc0).1.plog[k]? = some e ∧
        (probe trial false 1 st bi0 bj0 bc0).2 = ProbeRes.guessAt e.i e.j e.c ∧
        (∀ t ∈ (probe trial false 1 st bi0 bj0 bc0).1.plog, e.nl ≤ t.nl) ∧
        (∀ k2, k2 < k → ∀ e2,
          (probe trial false 1 st bi0 bj0 bc0).1.plog[k2]? = some e2 →
          e.nl < e2.nl)) := by
  obtain ⟨st3, T, heqC, hplogC, hnclC, hncoC, hnroC, hboundC⟩ :=
    probeCells_quiesc trial Htr (scanPairs st.nrows st.ncols)
      { st with probepad := List.replicate st.ncells ∅, probing := true }
      (Sel.mk bi0 bj0 bc0 INT_MAX)
      (fun p hp => scanPairs_mem st.nrows st.ncols p hp)
  have hplog3 : st3.plog = T := by
    rw [hplogC]
    show st.plog ++ T = T
    rw [hlog, List.nil_append]
  have hspec := foldl_selStep_spec T (Sel.mk bi0 bj0 bc0 INT_MAX)
  have hunfold : probe trial false 1 st bi0 bj0 bc0 =
      (match probeCells trial false true (scanPairs st.nrows st.ncols)
          { st with probepad := List.replicate st.ncells ∅, probing := true }
          (Sel.mk bi0 bj0 bc0 INT_MAX) with
       | PassRes.abortP =>
         ({ st with probepad := List.replicate st.ncells ∅, probing := true },
           ProbeRes.errorBacktrack)
       | PassRes.earlyP st3 rc =>
         (st3, if rc = -2 then ProbeRes.solvedR else ProbeRes.fact)
       | PassRes.finP st3 sel3 =>
         if sel3.nl = INT_MAX then (st3, ProbeRes.errorNoCand)
         else ({ st3 with probing := false },
           ProbeRes.guessAt sel3.i sel3.j sel3.c)) := rfl
  have hprobe : probe trial false 1 st bi0 bj0 bc0 =
      (if (List.foldl selStep (Sel.mk bi0 bj0 bc0 INT_MAX) T).nl = INT_MAX
       then (st3, ProbeRes.errorNoCand)
       else ({ st3 with probing := false },
         ProbeRes.guessAt (List.foldl selStep (Sel.mk bi0 bj0 bc0 INT_MAX) T).i
           (List.foldl selStep (Sel.mk bi0 bj0 bc0 INT_MAX) T).j
           (List.foldl selStep (Sel.mk bi0 bj0 bc0 INT_MAX) T).c)) := by
    rw [hunfold, heqC]
  by_cases hT : T = []
  · rw [hT] at hprobe
    have hnil : (List.foldl selStep (Sel.mk bi0 bj0 bc0 INT_MAX)
        ([] : List Sel)).nl = INT_MAX := rfl
    rw [if_pos hnil] at hprobe
    rw [hprobe]
    have hempty : st3.plog = [] := by rw [hplog3, hT]
    exact ⟨fun _ => rfl, fun hne => absurd hempty hne⟩
  · obtain ⟨t0, ht0⟩ := List.exists_mem_of_ne_nil T hT
    have hFle : (List.foldl selStep (Sel.mk bi0 bj0 bc0 INT_MAX) T).nl ≤ t0.nl :=
      hspec.1 t0 ht0
    have ht0le : t0.nl ≤ st.ncells := hboundC t0 ht0
    have hFlt : (List.foldl selStep (Sel.mk bi0 bj0 bc0 INT_MAX) T).nl < INT_MAX :=
      lt_of_le_of_lt (le_trans hFle ht0le) hcap
    rw [if_neg (ne_of_lt hFlt)] at hprobe
    rw [hprobe]
    have hpl : (({ st3 with probing := false },
        ProbeRes.guessAt (List.foldl selStep (Sel.mk bi0 bj0 bc0 INT_MAX) T).i
          (List.foldl selStep (Sel.mk bi0 bj0 bc0 INT_MAX) T).j
          (List.foldl selStep (Sel.mk bi0 bj0 bc0 INT_MAX) T).c) :
        PState × ProbeRes).1.plog = T := hplog3
    rw [hpl]
    refine ⟨fun hemp => absurd hemp hT, fun _ => ?_⟩
    rcases hspec.2.2 with hfix | ⟨k, hk, hget, hlt, hbefore⟩
    · rw [hfix] at hFlt
      exact absurd hFlt (lt_irrefl INT_MAX)
    · refine ⟨k, T.get ⟨k, hk⟩, ?_, ?_, ?_, ?_⟩
      · rw [List.getElem?_eq_getElem hk, List.get_eq_getElem]
      · show (_, ProbeRes.guessAt _ _ _).2 = _
        rw [hget]
      · intro s hs
        rw [hget]
        exact hspec.1 s hs
      · intro k2 hklt e2 he2
        have hk2 : k2 < T.length := lt_trans hklt hk
        rw [List.getElem?_eq_getElem hk2] at he2
        injection he2 with he2e
        have hb := hbefore k2 hklt
        rw [List.get_eq_getElem] at hb
        rw [hget, ← he2e]
        exact hb

/-- Witness for C4 at a concrete quiescent trial oracle and start state. -/
theorem C4_witness :
    (∀ (c : ℕ) (s : PState), ((fun (_ : ℕ) (s : PState) => (s, LV.quiesc)) c s).2
      = LV.quiesc) ∧
    stW.plog = [] ∧ stW.ncells < INT_MAX ∧
    ((probe (fun _ s => (s, LV.quiesc)) false 1 stW 0 0 0).1.plog = [] →
      (probe (fun _ s => (s, LV.quiesc)) false 1 stW 0 0 0).2 =
        ProbeRes.errorNoCand) :=
  ⟨fun _ _ => rfl, rfl, by decide,
    (C4_probe_best_guess (fun _ s => (s, LV.quiesc)) (fun _ _ => rfl) stW 0 0 0
      rfl (by decide)).1⟩

/-! ### C9 — monotone instrumentation counters -/

/-- Componentwise order on the `(nlines, guesses, probes, merges)` counters. -/
def ctLE (a b : ℕ × ℕ × ℕ × ℕ) : Prop :=
  a.1 ≤ b.1 ∧ a.2.1 ≤ b.2.1 ∧ a.2.2.1 ≤ b.2.2.1 ∧ a.2.2.2 ≤ b.2.2.2

instance (a b : ℕ × ℕ × ℕ × ℕ) : Decidable (ctLE a b) := by
  unfold ctLE
  infer_instance

theorem ctLE_refl (a : ℕ × ℕ × ℕ × ℕ) : ctLE a a :=
  ⟨le_refl _, le_refl _, le_refl _, le_refl _⟩

theorem ctLE_trans {a b c : ℕ × ℕ × ℕ × ℕ} (h1 : ctLE a b) (h2 : ctLE b c) : ctLE a c :=
  ⟨le_trans h1.1 h2.1, le_trans h1.2.1 h2.2.1, le_trans h1.2.2.1 h2.2.2.1,
    le_trans h1.2.2.2 h2.2.2.2⟩

theorem guess_cell_ctrs (st : PState) (idx c : ℕ) :
    ctrs (guess_cell st idx c) = ctrs st := by
  unfold guess_cell
  rw [add_jobs_ctrs]
  show ctrs (add_hist st idx true) = ctrs st
  rw [add_hist_ctrs]

theorem teCell_ctrs (ls : List Cell → ℕ → ℕ → Bool) (st : PState) (idx : ℕ) :
    ctrs (teCell ls st idx).1 = ctrs st := by
  unfold teCell
  by_cases hn : (st.cells.getD idx dCell).n = 1
  · rw [if_pos hn]
  · rw [if_neg hn]
    exact (tryColors_core ls idx (List.range st.ncolor) st
      (st.cells.getD idx dCell).bits (st.cells.getD idx dCell).n 0 hn).2.2.1

theorem teScan_ctrs (ls : List Cell → ℕ → ℕ → Bool) :
    ∀ (l : List ℕ) (st : PState) (hits : ℕ), ctrs (teScan ls l st hits).1 = ctrs st := by
  intro l
  induction l with
  | nil => intro st hits; rfl
  | cons idx rest ih =>
    intro st hits
    simp only [teScan]
    rw [ih]
    exact teCell_ctrs ls st idx

theorem try_everything_ctrs (ls : List Cell → ℕ → ℕ → Bool) (st : PState) :
    ctrs (try_everything ls st).1 = ctrs st :=
  teScan_ctrs ls (List.range st.cells.length) st 0

theorem backtrackList_ctrs : ∀ (l : List Hist) (st st2 : PState),
    backtrackList l st = some st2 → ctrs st2 = ctrs st := by
  intro l
  induction l with
  | nil =>
    intro st st2 h
    exact Option.noConfusion h
  | cons h rest ih =>
    intro st st2 hbt
    simp only [backtrackList] at hbt
    by_cases hb : h.branch = true
    · rw [if_pos hb] at hbt
      by_cases hnb : h.oldBits \ (st.cells.getD h.cellIdx dCell).bits = ∅
      · rw [if_pos hnb] at hbt
        have := ih _ _ hbt
        rw [this]
        show ctrs (add_jobs _ h.cellIdx) = ctrs st
        rw [add_jobs_ctrs]
        rfl
      · rw [if_neg hnb] at hbt
        cases hbt
        rw [add_jobs_ctrs]
        rfl
    · rw [if_neg hb] at hbt
      have := ih _ _ hbt
      rw [this]
      exact (restoreTop_aux _ _).2.2.2

theorem backtrack_ctrs (st st2 : PState) (h : backtrack st = some st2) :
    ctrs st2 = ctrs st :=
  backtrackList_ctrs st.history (flush_jobs st) st2 h

theorem merge_check_ctrs (st : PState) : ctrs (merge_check st).1 = ctrs st := by
  have key : ∀ (elems : List MergeElem) (acc : PState × Bool),
      ctrs acc.1 = ctrs st →
      ctrs (elems.foldl (fun acc e =>
        if e.maxc = st.mergeSt.cur then
          let cur := acc.1.cells.getD e.cellIdx dCell
          let nb := cur.bits \ e.bits
          if nb = cur.bits ∨ nb = ∅ then acc
          else (tightenCell acc.1 e.cellIdx nb, true)
        else acc) acc).1 = ctrs st := by
    intro elems
    induction elems with
    | nil => intro acc h3; exact h3
    | cons e rest ih =>
      intro acc h3
      simp only [List.foldl_cons]
      by_cases hm : e.maxc = st.mergeSt.cur
      · rw [if_pos hm]
        by_cases hskip : (acc.1.cells.getD e.cellIdx dCell).bits \ e.bits =
            (acc.1.cells.getD e.cellIdx dCell).bits ∨
            (acc.1.cells.getD e.cellIdx dCell).bits \ e.bits = ∅
        · rw [if_pos hskip]
          exact ih acc h3
        · rw [if_neg hskip]
          refine ih _ ?_
          show ctrs (tightenCell acc.1 e.cellIdx _) = ctrs st
          rw [tightenCell_ctrs]
          exact h3
      · rw [if_neg hm]
        exact ih acc h3
  exact key st.mergeSt.elems (st, false) rfl

/-- Counter bound carried by a colour-loop result: on every non-aborting
outcome the final counters dominate the starting ones. -/
def loopCtrOK (s0 : PState) : LoopRes → Prop
  | .abortL => True
  | .early st2 _ _ _ => ctLE (ctrs s0) (ctrs st2)
  | .fin st2 _ _ _ => ctLE (ctrs s0) (ctrs st2)

theorem loopCtrOK_mono {s0 s1 : PState} (h : ctLE (ctrs s0) (ctrs s1)) :
    ∀ res, loopCtrOK s1 res → loopCtrOK s0 res := by
  intro res
  cases res with
  | abortL => intro _; trivial
  | early st2 a b r => intro h2; exact ctLE_trans h h2
  | fin st2 a b f => intro h2; exact ctLE_trans h h2

/-- Counter bound carried by a pass result. -/
def passCtrOK (s0 : PState) : PassRes → Prop
  | .abortP => True
  | .earlyP st2 _ => ctLE (ctrs s0) (ctrs st2)
  | .finP st2 _ => ctLE (ctrs s0) (ctrs st2)

theorem passCtrOK_mono {s0 s1 : PState} (h : ctLE (ctrs s0) (ctrs s1)) :
    ∀ res, passCtrOK s1 res → passCtrOK s0 res := by
  intro res
  cases res with
  | abortP => intro _; trivial
  | earlyP st2 rc => intro h2; exact ctLE_trans h h2
  | finP st2 sel => intro h2; exact ctLE_trans h h2

set_option maxHeartbeats 1600000 in
/-- The colour loop of `probe_cell` never decreases a counter, whatever the
trial oracle reports: `probes` counts each probe made and `guesses` each
contradiction handled, and everything else is preserved by the undo and
backtrack plumbing. -/
theorem probeCellLoop_ctrs (trial : ℕ → PState → PState × LV) (merging : Bool)
    (idx : ℕ) : ∀ (cs : List ℕ) (st : PState) (bnl bc fb : ℕ),
    loopCtrOK st (probeCellLoop trial merging idx cs st bnl bc fb) := by
  cases merging with
  | false =>
    intro cs
    induction cs with
    | nil =>
      intro st bnl bc fb
      exact ctLE_refl (ctrs st)
    | cons c cs ih =>
      intro st bnl bc fb
      simp only [probeCellLoop]
      by_cases hmay : c ∈ (st.cells.getD idx dCell).bits
      · rw [if_pos hmay]
        by_cases hpad : c ∈ st.probepad.getD idx ∅
        · rw [if_pos hpad]
          rw [if_neg Bool.false_ne_true]
          exact ih st bnl bc fb
        · rw [if_neg hpad]
          rw [if_neg Bool.false_ne_true]
          set st3 := guess_cell { st with probes := st.probes + 1 } idx c with hst3
          have hc3 : ctrs st3 = (st.nlines, st.guesses, st.probes + 1, st.merges) := by
            rw [hst3, guess_cell_ctrs]
            rfl
          have hstep : ctLE (ctrs st) (ctrs st3) := by
            rw [hc3]
            exact ⟨le_refl _, le_refl _, Nat.le_succ _, le_refl _⟩
          cases htr2 : (trial c st3).2 with
          | quiesc =>
            set st4 := padOr st3.cells (withGrid st3 (trial c st3).1) with hst4
            set nleft := st4.ncells - st4.nsolved with hnleft
            set st5 := { st4 with plog := st4.plog ++
              [Sel.mk (idx / st4.ncols) (idx % st4.ncols) c nleft] } with hst5
            have hc6 : ctrs (undo st5) = ctrs st3 := by
              show ctrs (undoList st5.history st5) = ctrs st3
              rw [(undoList_aux _ _).2.2.2, hst5]
              show ctrs st4 = ctrs st3
              rw [hst4]
              rfl
            have hle6 : ctLE (ctrs st) (ctrs (undo st5)) := by
              rw [hc6]
              exact hstep
            by_cases himp : nleft < bnl
            · rw [if_pos himp]
              exact loopCtrOK_mono hle6 _ (ih (undo st5) nleft c (fb + 1))
            · rw [if_neg himp]
              exact loopCtrOK_mono hle6 _ (ih (undo st5) bnl bc fb)
          | contra =>
            rw [if_neg Bool.false_ne_true]
            set st4 := padOr st3.cells (withGrid st3 (trial c st3).1) with hst4
            have hc4 : ctrs st4 = (st.nlines, st.guesses, st.probes + 1, st.merges) := by
              rw [hst4]
              exact hc3
            show loopCtrOK st
              (match backtrack { st4 with guesses := st4.guesses + 1 } with
               | none => LoopRes.abortL
               | some st7 => LoopRes.early { st7 with probing := false } bnl bc (-1))
            cases hbt : backtrack { st4 with guesses := st4.guesses + 1 } with
            | none =>
              exact True.intro
            | some st7 =>
              show ctLE (ctrs st) (ctrs { st7 with probing := false })
              have h7 : ctrs st7 = ctrs { st4 with guesses := st4.guesses + 1 } :=
                backtrack_ctrs _ _ hbt
              have e1 : st7.nlines = st4.nlines := congrArg (fun t => t.1) h7
              have e2 : st7.guesses = st4.guesses + 1 := congrArg (fun t => t.2.1) h7
              have e3 : st7.probes = st4.probes := congrArg (fun t => t.2.2.1) h7
              have e4 : st7.merges = st4.merges := congrArg (fun t => t.2.2.2) h7
              have f1 : st4.nlines = st.nlines := congrArg (fun t => t.1) hc4
              have f2 : st4.guesses = st.guesses := congrArg (fun t => t.2.1) hc4
              have f3 : st4.probes = st.probes + 1 := congrArg (fun t => t.2.2.1) hc4
              have f4 : st4.merges = st.merges := congrArg (fun t => t.2.2.2) hc4
              exact ⟨by show st.nlines ≤ st7.nlines; omega,
                by show st.guesses ≤ st7.guesses; omega,
                by show st.probes ≤ st7.probes; omega,
                by show st.merges ≤ st7.merges; omega⟩
          | solvedLV =>
            rw [if_neg Bool.false_ne_true]
            set st4 := padOr st3.cells (withGrid st3 (trial c st3).1) with hst4
            have hc4 : ctrs st4 = (st.nlines, st.guesses, st.probes + 1, st.merges) := by
              rw [hst4]
              exact hc3
            show ctLE (ctrs st) (ctrs { st4 with probing := false })
            have f1 : st4.nlines = st.nlines := congrArg (fun t => t.1) hc4
            have f2 : st4.guesses = st.guesses := congrArg (fun t => t.2.1) hc4
            have f3 : st4.probes = st.probes + 1 := congrArg (fun t => t.2.2.1) hc4
            have f4 : st4.merges = st.merges := congrArg (fun t => t.2.2.2) hc4
            exact ⟨by show st.nlines ≤ st4.nlines; omega,
              by show st.guesses ≤ st4.guesses; omega,
              by show st.probes ≤ st4.probes; omega,
              by show st.merges ≤ st4.merges; omega⟩
      · rw [if_neg hmay]
        exact ih st bnl bc fb
  | true =>
    intro cs
    induction cs with
    | nil =>
      intro st bnl bc fb
      exact ctLE_refl (ctrs st)
    | cons c cs ih =>
      intro st bnl bc fb
      simp only [probeCellLoop]
      by_cases hmay : c ∈ (st.cells.getD idx dCell).bits
      · rw [if_pos hmay]
        by_cases hpad : c ∈ st.probepad.getD idx ∅
        · rw [if_pos hpad]
          rw [if_pos trivial]
          refine loopCtrOK_mono ?_ _
            (ih { st with mergeSt := merge_cancel st.mergeSt } bnl bc fb)
          exact ctLE_refl (ctrs st)
        · rw [if_neg hpad]
          rw [if_pos trivial]
          set st3 := guess_cell { { st with probes := st.probes + 1 } with
            mergeSt := merge_guess { st with probes := st.probes + 1 }.mergeSt } idx c
            with hst3
          have hc3 : ctrs st3 = (st.nlines, st.guesses, st.probes + 1, st.merges) := by
            rw [hst3, guess_cell_ctrs]
            rfl
          have hstep : ctLE (ctrs st) (ctrs st3) := by
            rw [hc3]
            exact ⟨le_refl _, le_refl _, Nat.le_succ _, le_refl _⟩
          cases htr2 : (trial c st3).2 with
          | quiesc =>
            set st4 := padOr st3.cells (withGrid st3 (trial c st3).1) with hst4
            set nleft := st4.ncells - st4.nsolved with hnleft
            set st5 := { st4 with plog := st4.plog ++
              [Sel.mk (idx / st4.ncols) (idx % st4.ncols) c nleft] } with hst5
            have hc6 : ctrs (undo st5) = ctrs st3 := by
              show ctrs (undoList st5.history st5) = ctrs st3
              rw [(undoList_aux _ _).2.2.2, hst5]
              show ctrs st4 = ctrs st3
              rw [hst4]
              rfl
            have hle6 : ctLE (ctrs st) (ctrs (undo st5)) := by
              rw [hc6]
              exact hstep
            by_cases himp : nleft < bnl
            · rw [if_pos himp]
              exact loopCtrOK_mono hle6 _ (ih (undo st5) nleft c (fb + 1))
            · rw [if_neg himp]
              exact loopCtrOK_mono hle6 _ (ih (undo st5) bnl bc fb)
          | contra =>
            rw [if_pos trivial]
            set st4 := padOr st3.cells (withGrid st3 (trial c st3).1) with hst4
            have hc4 : ctrs st4 = (st.nlines, st.guesses, st.probes + 1, st.merges) := by
              rw [hst4]
              exact hc3
            have hc5 : ctrs ({ st4 with mergeSt := merge_cancel st4.mergeSt }) = ctrs st4 :=
              rfl
            show loopCtrOK st
              (match backtrack { { st4 with mergeSt := merge_cancel st4.mergeSt } with
                  guesses := { st4 with mergeSt := merge_cancel st4.mergeSt }.guesses + 1 } with
               | none => LoopRes.abortL
               | some st7 => LoopRes.early { st7 with probing := false } bnl bc (-1))
            cases hbt : backtrack { { st4 with mergeSt := merge_cancel st4.mergeSt } with
                guesses := { st4 with mergeSt := merge_cancel st4.mergeSt }.guesses + 1 } with
            | none =>
              exact True.intro
            | some st7 =>
              show ctLE (ctrs st) (ctrs { st7 with probing := false })
              have h7 : ctrs st7 = ctrs { { st4 with mergeSt := merge_cancel st4.mergeSt } with
                  guesses := { st4 with mergeSt := merge_cancel st4.mergeSt }.guesses + 1 } :=
                backtrack_ctrs _ _ hbt
              have e1 : st7.nlines = st4.nlines := congrArg (fun t => t.1) h7
              have e2 : st7.guesses = st4.guesses + 1 := congrArg (fun t => t.2.1) h7
              have e3 : st7.probes = st4.probes := congrArg (fun t => t.2.2.1) h7
              have e4 : st7.merges = st4.merges := congrArg (fun t => t.2.2.2) h7
              have f1 : st4.nlines = st.nlines := congrArg (fun t => t.1) hc4
              have f2 : st4.guesses = st.guesses := congrArg (fun t => t.2.1) hc4
              have f3 : st4.probes = st.probes + 1 := congrArg (fun t => t.2.2.1) hc4
              have f4 : st4.merges = st.merges := congrArg (fun t => t.2.2.2) hc4
              exact ⟨by show st.nlines ≤ st7.nlines; omega,
                by show st.guesses ≤ st7.guesses; omega,
                by show st.probes ≤ st7.probes; omega,
                by show st.merges ≤ st7.merges; omega⟩
          | solvedLV =>
            rw [if_pos trivial]
            set st4 := padOr st3.cells (withGrid st3 (trial c st3).1) with hst4
            have hc4 : ctrs st4 = (st.nlines, st.guesses, st.probes + 1, st.merges) := by
              rw [hst4]
              exact hc3
            set st5 := { st4 with mergeSt := merge_cancel st4.mergeSt } with hst5
            show ctLE (ctrs st) (ctrs { st5 with probing := false })
            have hc5 : ctrs st5 = ctrs st4 := by
              rw [hst5]
              rfl
            have f1 : st5.nlines = st.nlines := by
              have g1 : st5.nlines = st4.nlines := congrArg (fun t => t.1) hc5
              have h1 : st4.nlines = st.nlines := congrArg (fun t => t.1) hc4
              rw [g1, h1]
            have f2 : st5.guesses = st.guesses := by
              have g2 : st5.guesses = st4.guesses := congrArg (fun t => t.2.1) hc5
              have h2 : st4.guesses = st.guesses := congrArg (fun t => t.2.1) hc4
              rw [g2, h2]
            have f3 : st5.probes = st.probes + 1 := by
              have g3 : st5.probes = st4.probes := congrArg (fun t => t.2.2.1) hc5
              have h3 : st4.probes = st.probes + 1 := congrArg (fun t => t.2.2.1) hc4
              rw [g3, h3]
            have f4 : st5.merges = st.merges := by
              have g4 : st5.merges = st4.merges := congrArg (fun t => t.2.2.2) hc5
              have h4 : st4.merges = st.merges := congrArg (fun t => t.2.2.2) hc4
              rw [g4, h4]
            exact ⟨by show st.nlines ≤ st5.nlines; omega,
              by show st.guesses ≤ st5.guesses; omega,
              by show st.probes ≤ st5.probes; omega,
              by show st.merges ≤ st5.merges; omega⟩
      · rw [if_neg hmay]
        exact ih st bnl bc fb

theorem probe_cell_ctrs (trial : ℕ → PState → PState × LV) (mergeprobe : Bool)
    (idx : ℕ) (st : PState) (bnl bc : ℕ) :
    ∀ st2 a b r, probe_cell trial mergeprobe idx st bnl bc = PCRes.done st2 a b r →
    ctLE (ctrs st) (ctrs st2) := by
  intro st2 a b r h
  have hl := probeCellLoop_ctrs trial mergeprobe idx (List.range st.ncolor) st bnl bc 0
  simp only [probe_cell] at h
  cases hres : probeCellLoop trial mergeprobe idx (List.range st.ncolor) st bnl bc 0 with
  | abortL =>
    rw [hres] at h
    exact PCRes.noConfusion h
  | early s2 b1 b2 rc =>
    rw [hres] at h hl
    simp only [loopCtrOK] at hl
    cases h
    exact hl
  | fin s2 b1 b2 f2 =>
    rw [hres] at h hl
    simp only [loopCtrOK] at hl
    replace h : (if mergeprobe = true then
        (if (merge_check s2).2 = true then
          PCRes.done { (merge_check s2).1 with
            merges := (merge_check s2).1.merges + 1, probing := false } b1 b2 (-1)
         else PCRes.done (merge_check s2).1 b1 b2 (f2 : ℤ))
      else PCRes.done s2 b1 b2 (f2 : ℤ)) = PCRes.done st2 a b r := h
    by_cases hm : mergeprobe = true
    · rw [if_pos hm] at h
      by_cases hmc : (merge_check s2).2 = true
      · rw [if_pos hmc] at h
        cases h
        refine ctLE_trans hl ?_
        have hmcc := merge_check_ctrs s2
        have e1 : (merge_check s2).1.nlines = s2.nlines := congrArg (fun t => t.1) hmcc
        have e2 : (merge_check s2).1.guesses = s2.guesses := congrArg (fun t => t.2.1) hmcc
        have e3 : (merge_check s2).1.probes = s2.probes := congrArg (fun t => t.2.2.1) hmcc
        have e4 : (merge_check s2).1.merges = s2.merges := congrArg (fun t => t.2.2.2) hmcc
        exact ⟨by show s2.nlines ≤ (merge_check s2).1.nlines; omega,
          by show s2.guesses ≤ (merge_check s2).1.guesses; omega,
          by show s2.probes ≤ (merge_check s2).1.probes; omega,
          by show s2.merges ≤ (merge_check s2).1.merges + 1; omega⟩
      · rw [if_neg hmc] at h
        cases h
        refine ctLE_trans hl ?_
        rw [← merge_check_ctrs s2]
        exact ctLE_refl _
    · rw [if_neg hm] at h
      cases h
      exact hl

theorem probeCells_ctrs (trial : ℕ → PState → PState × LV) (merging useNeigh : Bool) :
    ∀ (L : List (ℕ × ℕ)) (st : PState) (sel : Sel),
    passCtrOK st (probeCells trial merging useNeigh L st sel) := by
  intro L
  induction L with
  | nil =>
    intro st sel
    exact ctLE_refl (ctrs st)
  | cons p L ih =>
    intro st sel
    obtain ⟨i, j⟩ := p
    simp only [probeCells]
    by_cases hskip : (cellAt st i j).n < 2
    · rw [if_pos hskip]
      exact ih st sel
    · rw [if_neg hskip]
      by_cases hneigh : useNeigh = true ∧ count_neighbors st i j < 2
      · rw [if_pos hneigh]
        exact ih st sel
      · rw [if_neg hneigh]
        cases hpc : probe_cell trial merging (i * st.ncols + j) st sel.nl sel.c with
        | abortRun =>
          exact True.intro
        | done s2 b1 b2 rc =>
          have hd := probe_cell_ctrs trial merging (i * st.ncols + j) st sel.nl sel.c
            s2 b1 b2 rc hpc
          show passCtrOK st (if rc < 0 then PassRes.earlyP s2 rc
            else probeCells trial merging useNeigh L s2
              (if 0 < rc then { i := i, j := j, c := b2, nl := b1 }
               else { i := sel.i, j := sel.j, c := b2, nl := b1 }))
          by_cases hrc : rc < 0
          · rw [if_pos hrc]
            exact hd
          · rw [if_neg hrc]
            exact passCtrOK_mono hd _ (ih s2 _)

theorem probeHistPass_ctrs (trial : ℕ → PState → PState × LV) (merging : Bool) :
    ∀ (l : List Hist) (st : PState) (sel : Sel),
    passCtrOK st (probeHistPass trial merging l st sel) := by
  intro l
  induction l with
  | nil =>
    intro st sel
    exact ctLE_refl (ctrs st)
  | cons h rest ih =>
    intro st sel
    simp only [probeHistPass]
    have hn := probeCells_ctrs trial merging false
      (neighborsOf st (h.cellIdx / st.ncols) (h.cellIdx % st.ncols)) st sel
    cases hres : probeCells trial merging false
        (neighborsOf st (h.cellIdx / st.ncols) (h.cellIdx % st.ncols)) st sel with
    | abortP =>
      exact True.intro
    | earlyP s2 rc =>
      rw [hres] at hn
      simp only [passCtrOK] at hn
      exact hn
    | finP s2 sel2 =>
      rw [hres] at hn
      simp only [passCtrOK] at hn
      show passCtrOK st (if h.branch = true then PassRes.finP s2 sel2
        else probeHistPass trial merging rest s2 sel2)
      by_cases hb : h.branch = true
      · rw [if_pos hb]
        exact hn
      · rw [if_neg hb]
        exact passCtrOK_mono hn _ (ih s2 sel2)

theorem probe_ctrs (trial : ℕ → PState → PState × LV) (mergeprobe : Bool)
    (probelevel : ℕ) (st : PState) (b1 b2 b3 : ℕ) :
    ctLE (ctrs st) (ctrs (probe trial mergeprobe probelevel st b1 b2 b3).1) := by
  simp only [probe]
  set st1 := { st with probepad := List.replicate st.ncells ∅, probing := true }
    with hst1
  set sel0 : Sel := { i := b1, j := b2, c := b3, nl := INT_MAX } with hsel0
  have hc1 : ctrs st1 = ctrs st := by
    rw [hst1]
    rfl
  have hpassOK : passCtrOK st
      (if 1 < probelevel then probeHistPass trial mergeprobe st1.history st1 sel0
       else PassRes.finP st1 sel0) := by
    by_cases hpl : 1 < probelevel
    · rw [if_pos hpl]
      refine passCtrOK_mono ?_ _ (probeHistPass_ctrs trial mergeprobe st1.history st1 sel0)
      rw [hc1]
      exact ctLE_refl _
    · rw [if_neg hpl]
      show ctLE (ctrs st) (ctrs st1)
      rw [hc1]
      exact ctLE_refl _
  cases hpass : (if 1 < probelevel then probeHistPass trial mergeprobe st1.history st1 sel0
      else PassRes.finP st1 sel0) with
  | abortP =>
    show ctLE (ctrs st) (ctrs st1)
    rw [hc1]
    exact ctLE_refl _
  | earlyP s2 rc =>
    rw [hpass] at hpassOK
    simp only [passCtrOK] at hpassOK
    exact hpassOK
  | finP s2 sel2 =>
    rw [hpass] at hpassOK
    simp only [passCtrOK] at hpassOK
    show ctLE (ctrs st)
      (ctrs (match probeCells trial mergeprobe true (scanPairs s2.nrows s2.ncols) s2 sel2 with
        | PassRes.abortP => (s2, ProbeRes.errorBacktrack)
        | PassRes.earlyP st3 rc => (st3, if rc = -2 then ProbeRes.solvedR else ProbeRes.fact)
        | PassRes.finP st3 sel3 =>
          if sel3.nl = INT_MAX then (st3, ProbeRes.errorNoCand)
          else ({ st3 with probing := false },
            ProbeRes.guessAt sel3.i sel3.j sel3.c)).1)
    have hcc := probeCells_ctrs trial mergeprobe true (scanPairs s2.nrows s2.ncols) s2 sel2
    cases hcells : probeCells trial mergeprobe true (scanPairs s2.nrows s2.ncols) s2 sel2 with
    | abortP =>
      exact hpassOK
    | earlyP s3 rc =>
      rw [hcells] at hcc
      simp only [passCtrOK] at hcc
      exact ctLE_trans hpassOK hcc
    | finP s3 sel3 =>
      rw [hcells] at hcc
      simp only [passCtrOK] at hcc
      show ctLE (ctrs st)
        (ctrs (if sel3.nl = INT_MAX then (s3, ProbeRes.errorNoCand)
          else ({ s3 with probing := false },
            ProbeRes.guessAt sel3.i sel3.j sel3.c)).1)
      by_cases hmax : sel3.nl = INT_MAX
      · rw [if_pos hmax]
        exact ctLE_trans hpassOK hcc
      · rw [if_neg hmax]
        exact ctLE_trans hpassOK hcc

theorem solveLoop_ctrs (lro : ℕ → ℕ → List Cell → Option (List (ℕ × Finset ℕ)))
    (ls : List Cell → ℕ → ℕ → Bool) (guessF : PState → Option PState)
    (th mb : Bool) (lf : ℕ) :
    ∀ (fuel : ℕ) (st : PState) (out : PState × ℕ),
    solveLoop lro ls guessF th mb lf fuel st = some out →
    ctLE (ctrs st) (ctrs out.1) := by
  intro fuel
  induction fuel with
  | zero =>
    intro st out h
    exact Option.noConfusion h
  | succ f ih =>
    intro st out h
    cases hls : logic_solve lro lf st with
    | none =>
      simp only [solveLoop, hls] at h
      exact Option.noConfusion h
    | some pr =>
      obtain ⟨st1, r⟩ := pr
      simp only [solveLoop, hls] at h
      have hlsc := logic_solve_counters lro lf st (st1, r) hls
      have hle1 : ctLE (ctrs st) (ctrs st1) :=
        ⟨hlsc.2.2.2, le_of_eq hlsc.1.symm, le_of_eq hlsc.2.1.symm,
          le_of_eq hlsc.2.2.1.symm⟩
      by_cases hr : r = 1
      · rw [if_pos hr] at h
        by_cases hdone : st1.nsolved = st1.ncells
        · rw [if_pos hdone] at h
          cases h
          exact hle1
        · rw [if_neg hdone] at h
          set te := (if th = true ∧ st1.history = [] then try_everything ls st1
            else (st1, 0)) with hte
          have hteEq : ctrs te.1 = ctrs st1 := by
            rw [hte]
            by_cases hth : th = true ∧ st1.history = []
            · rw [if_pos hth]
              exact try_everything_ctrs ls st1
            · rw [if_neg hth]
          have hlete : ctLE (ctrs st1) (ctrs te.1) := by
            rw [hteEq]
            exact ctLE_refl _
          by_cases hh : (th = true ∧ st1.history = []) ∧ 0 < te.2
          · rw [if_pos hh] at h
            exact ctLE_trans hle1 (ctLE_trans hlete (ih te.1 out h))
          · rw [if_neg hh] at h
            by_cases hmb : mb = false
            · rw [if_pos hmb] at h
              cases h
              exact ctLE_trans hle1 hlete
            · rw [if_neg hmb] at h
              cases hg : guessF te.1 with
              | none =>
                rw [hg] at h
                cases h
                exact ctLE_trans hle1 hlete
              | some g =>
                rw [hg] at h
                have hw : ctLE (ctrs te.1) (ctrs { withGrid te.1 g with
                    guesses := (withGrid te.1 g).guesses + 1 }) :=
                  ⟨le_refl _, Nat.le_succ _, le_refl _, le_refl _⟩
                exact ctLE_trans hle1 (ctLE_trans hlete
                  (ctLE_trans hw (ih _ out h)))
      · rw [if_neg hr] at h
        have hle2 : ctLE (ctrs st1)
            (ctrs { st1 with guesses := st1.guesses + 1 }) :=
          ⟨le_refl _, Nat.le_succ _, le_refl _, le_refl _⟩
        cases hbt : backtrack { st1 with guesses := st1.guesses + 1 } with
        | none =>
          rw [hbt] at h
          cases h
          exact ctLE_trans hle1 hle2
        | some st3 =>
          rw [hbt] at h
          have hb3 : ctrs st3 = ctrs { st1 with guesses := st1.guesses + 1 } :=
            backtrack_ctrs _ _ hbt
          have hle3 : ctLE (ctrs { st1 with guesses := st1.guesses + 1 }) (ctrs st3) := by
            rw [hb3]
            exact ctLE_refl _
          exact ctLE_trans hle1 (ctLE_trans hle2 (ctLE_trans hle3 (ih st3 out h)))

/-- C9: the instrumentation counters `nlines`, `guesses`, `probes` and
`merges` never decrease: `logic_solve` only adds to `nlines` per line-solver
run and carries the rest; `try_everything` and `guess_cell` leave all four
unchanged; `backtrack` restores cells, never counters; `probe` only ever adds
to `probes`, `guesses` and `merges`; and any completed `solve` call's final
counters dominate its initial ones. -/
theorem C9_counters_monotone (lro : ℕ → ℕ → List Cell → Option (List (ℕ × Finset ℕ)))
    (ls : List Cell → ℕ → ℕ → Bool) (guessF : PState → Option PState)
    (trial : ℕ → PState → PState × LV) (mergeprobe : Bool) (probelevel : ℕ) :
    (∀ (fuel : ℕ) (st : PState) (out : PState × ℕ),
      logic_solve lro fuel st = some out → ctLE (ctrs st) (ctrs out.1)) ∧
    (∀ st : PState, ctrs (try_everything ls st).1 = ctrs st) ∧
    (∀ (st : PState) (idx c : ℕ), ctrs (guess_cell st idx c) = ctrs st) ∧
    (∀ st st2 : PState, backtrack st = some st2 → ctrs st2 = ctrs st) ∧
    (∀ (st : PState) (b1 b2 b3 : ℕ),
      ctLE (ctrs st) (ctrs (probe trial mergeprobe probelevel st b1 b2 b3).1)) ∧
    (∀ (th mb : Bool) (lf fuel : ℕ) (st : PState) (out : PState × ℕ),
      solve lro ls guessF th mb lf fuel st = some out →
      ctLE (ctrs st) (ctrs out.1)) := by
  refine ⟨?_, try_everything_ctrs ls, guess_cell_ctrs, backtrack_ctrs,
    probe_ctrs trial mergeprobe probelevel, ?_⟩
  · intro fuel st out h
    have := logic_solve_counters lro fuel st out h
    exact ⟨this.2.2.2, le_of_eq this.1.symm, le_of_eq this.2.1.symm,
      le_of_eq this.2.2.1.symm⟩
  · intro th mb lf fuel st out h
    unfold solve at h
    by_cases hc : st.ncolor < 2
    · rw [if_pos hc] at h
      cases h
      exact ctLE_refl _
    · rw [if_neg hc] at h
      exact solveLoop_ctrs lro ls guessF th mb lf fuel st out h

/-- Witness for C9 at concrete oracles and states. -/
theorem C9_witness :
    logic_solve lroW 1 stW = some (stW, 1) ∧
    ctLE (ctrs stW) (ctrs (stW, 1).1) ∧
    backtrack stB = some stB2 ∧
    ctrs stB2 = ctrs stB ∧
    ctLE (ctrs stW) (ctrs (probe trialC false 1 stW 0 0 0).1) :=
  ⟨rfl,
    (C9_counters_monotone lroW lsW gW trialC false 1).1 1 stW (stW, 1) rfl,
    by decide,
    (C9_counters_monotone lroW lsW gW trialC false 1).2.2.2.1 stB stB2 (by decide),
    (C9_counters_monotone lroW lsW gW trialC false 1).2.2.2.2.1 stW 0 0 0⟩

end PBN
